import Mathlib

/-!
Verification of the pymk build-orchestration engine (`src/pymk/internal.py`,
with the earlier evolution `src/src/module.py` where a claim refers to it).

Shallow embedding conventions:
* `Target` and `PhonyTarget` objects are identified by a numeric object id
  (Python uses object identity as the dict/set key for these classes, since
  they define no `__eq__`); `Path` dependencies are identified by their
  string value.
* Python dicts are insertion-ordered association lists; `dict[k] = v`
  overwrites in place when the key is present and appends otherwise.
* The filesystem and the thread pool are oracles: `Oracle.fs` answers each
  successive `stat`/`exists` query (indexed by a query clock), `Oracle.ok`
  decides whether a dispatched command exits 0, and `Oracle.pick` chooses
  which outstanding future the coordinator observes next.  Processing the
  completed futures one at a time is equivalent to Python's batch
  `concurrent.futures.wait` loop, because the batch is processed
  sequentially by the same thread.
* Recursion in the source (work-list loop, readiness cascade, scheduler
  loop) is modelled with explicit fuel; theorems take the hypothesis that
  the run terminated within its fuel (`= some _`).
* Machine integers: mtimes and the pending counters are unbounded Python
  ints, modelled as `Int` (the pending counter can go negative).
-/

/-- Association-list lookup, first match wins (Python dict lookup). -/
def lookupA {α β : Type} [DecidableEq α] : List (α × β) → α → Option β
  | [], _ => none
  | (k, v) :: rest, key => if k = key then some v else lookupA rest key

/-- Association-list store: overwrite in place when present, append when
absent (Python `d[k] = v` on an insertion-ordered dict). -/
def setA {α β : Type} [DecidableEq α] : List (α × β) → α → β → List (α × β)
  | [], key, val => [(key, val)]
  | (k, v) :: rest, key, val =>
    if k = key then (k, val) :: rest else (k, v) :: setA rest key val

/-- A `Dependency` (`Target | PhonyTarget | Path` in the source).  Targets
and phony targets are referenced by object id, paths by value. -/
inductive Dep where
  | path : String → Dep
  | tgt : Nat → Dep
  | phony : Nat → Dep
deriving DecidableEq

/-- Attributes of a `Target` object: command template, output path and the
normalised dependency groups (`dict[str, list[Dependency]]`). -/
structure TargetData where
  cmd : String
  output : String
  depends : List (String × List Dep)

/-- Attributes of a `PhonyTarget` object: name, optional command and the
normalised dependency groups.  (The `help` attribute plays no role in any
claim.) -/
structure PhonyData where
  name : String
  cmd : Option String
  depends : List (String × List Dep)

/-- The immutable world of declared objects plus the global variable store
`VARIABLES` as it stands when a build run starts. -/
structure Env where
  tgtData : Nat → TargetData
  phonyData : Nat → PhonyData
  vars : List (String × String)

/-- The `depends` dict of a node (a `Path` has none). -/
def dependsOf (env : Env) : Dep → List (String × List Dep)
  | .path _ => []
  | .tgt i => (env.tgtData i).depends
  | .phony i => (env.phonyData i).depends

/-- Flatten dependency groups in iteration order, exactly as
`for dependencies in t.depends.values(): for target in dependencies:`
visits them. -/
def groupDeps : List (String × List Dep) → List Dep
  | [] => []
  | g :: gs => g.2 ++ groupDeps gs

/-- All direct dependency occurrences of a node, in iteration order. -/
def allDeps (env : Env) (d : Dep) : List Dep :=
  groupDeps (dependsOf env d)

/-- The `str()` form of a dependency: a `Target` prints as its output path,
a `PhonyTarget` as its name, a `Path` as itself. -/
def depStr (env : Env) : Dep → String
  | .path p => p
  | .tgt i => (env.tgtData i).output
  | .phony i => (env.phonyData i).name

/-- Whether the node is a `Target` instance. -/
def isTgt : Dep → Bool
  | .tgt _ => true
  | _ => false

/-- Whether the node is a `PhonyTarget` instance. -/
def isPhony : Dep → Bool
  | .phony _ => true
  | _ => false

/-- The output path of a `Target` node (unused for other nodes). -/
def outputOf (env : Env) : Dep → String
  | .tgt i => (env.tgtData i).output
  | _ => ""

/-- The command attribute of a node, `none` when absent. -/
def cmdOf (env : Env) : Dep → Option String
  | .path _ => none
  | .tgt i => some (env.tgtData i).cmd
  | .phony i => (env.phonyData i).cmd

/-- Python truthiness of the `cmd` attribute (`if t.cmd:`): `None` and the
empty string are falsy. -/
def cmdTruthy (env : Env) (t : Dep) : Bool :=
  match cmdOf env t with
  | none => false
  | some c => decide (c ≠ "")

/-- Errors a run can surface.  All but `keyError` are `PymkException`s;
`keyError` models the uncaught `KeyError` that `up_to_date` raises when a
dependency is missing from the `modified_times` cache. -/
inductive PyErr where
  | unsetVar : String → PyErr
  | assertFail : PyErr
  | cmdFailed : Dep → PyErr
  | expectedExist : Dep → PyErr
  | missingFile : String → PyErr
  | keyError : Dep → PyErr
deriving DecidableEq

/-- Whether the error is a `PymkException` (caught by `run`). -/
def isPymkExc : PyErr → Bool
  | .keyError _ => false
  | _ => true

/-! ## Variable substitution engine (`VAR_SUBST_REGEX`, `expand_cmd`) -/

/-- A word character for the regex `\w` (modelled over ASCII: letters,
digits, underscore). -/
def isWordChar (c : Char) : Bool :=
  c.isAlphanum || c = '_'

/-- The capture of `VAR_SUBST_REGEX = r'\$(\$|\w+|\(\w+\)|{\w+})'` at a
position directly after a `$`: either the escape `$$` or a variable name.
The enclosing brackets of the `$(NAME)`/`${NAME}` forms are already
stripped here, mirroring the `''.join(c for c in m.group(1) if c not in
'(){}')` step of `expand_cmd.get_variable`. -/
inductive VarTok where
  | dollar : VarTok
  | name : List Char → VarTok

/-- Match the regex alternatives right after a `$`; returns the token and
the unconsumed suffix, or `none` when the regex does not match here (the
`$` is then left as literal text and scanning resumes). -/
def matchVar (l : List Char) : Option (VarTok × List Char) :=
  match l with
  | [] => none
  | c :: rest =>
    if c = '$' then some (.dollar, rest)
    else if c = '(' then
      let nm := rest.takeWhile isWordChar
      if nm.isEmpty then none
      else
        match rest.dropWhile isWordChar with
        | ')' :: r2 => some (.name nm, r2)
        | _ => none
    else if c = '\x7b' then
      let nm := rest.takeWhile isWordChar
      if nm.isEmpty then none
      else
        match rest.dropWhile isWordChar with
        | '\x7d' :: r2 => some (.name nm, r2)
        | _ => none
    else
      let nm := l.takeWhile isWordChar
      if nm.isEmpty then none else some (.name nm, l.dropWhile isWordChar)

theorem dropWhile_length_le (p : Char → Bool) :
    ∀ l : List Char, (l.dropWhile p).length ≤ l.length := by
  intro l
  induction l with
  | nil => simp
  | cons c rest ih =>
    by_cases hp : p c
    · simp only [List.dropWhile_cons, hp, if_true, List.length_cons]
      omega
    · simp [List.dropWhile_cons, hp]

theorem matchVar_length {l : List Char} {tok : VarTok} {r : List Char}
    (h : matchVar l = some (tok, r)) : r.length ≤ l.length := by
  unfold matchVar at h
  match l with
  | [] => simp at h
  | c :: rest =>
    simp only at h
    split at h
    · simp only [Option.some.injEq, Prod.mk.injEq] at h
      simp [← h.2]
    · split at h
      · split at h
        · simp at h
        · split at h
          · rename_i heq
            simp only [Option.some.injEq, Prod.mk.injEq] at h
            have h1 : (rest.dropWhile isWordChar).length ≤ rest.length :=
              dropWhile_length_le _ _
            rw [heq, h.2] at h1
            simp only [List.length_cons] at h1 ⊢
            omega
          · simp at h
      · split at h
        · split at h
          · simp at h
          · split at h
            · rename_i heq
              simp only [Option.some.injEq, Prod.mk.injEq] at h
              have h1 : (rest.dropWhile isWordChar).length ≤ rest.length :=
                dropWhile_length_le _ _
              rw [heq, h.2] at h1
              simp only [List.length_cons] at h1 ⊢
              omega
            · simp at h
        · split at h
          · simp at h
          · simp only [Option.some.injEq, Prod.mk.injEq] at h
            have h1 : ((c :: rest).dropWhile isWordChar).length ≤ (c :: rest).length :=
              dropWhile_length_le _ _
            rw [h.2] at h1
            exact h1

/-- Resolution of one matched token, the body of
`expand_cmd.get_variable`: `$$` yields a literal `$`; `OUTPUT` on a
`Target` yields its output path; a dependency-group name yields the
space-joined `str()` forms of the group's entries; otherwise the global
variable store; otherwise `PymkException(f'Unset variable "$NAME"')`. -/
def resolveTok (env : Env) (t : Dep) : VarTok → Except PyErr (List Char)
  | .dollar => .ok ['$']
  | .name nm =>
    let var := String.mk nm
    if var = "OUTPUT" && isTgt t then .ok (outputOf env t).data
    else
      match lookupA (dependsOf env t) var with
      | some ds => .ok (String.intercalate " " (ds.map (depStr env))).data
      | none =>
        match lookupA env.vars var with
        | some v => .ok v.data
        | none => .error (.unsetVar var)

/-- Left-to-right, non-overlapping scan of `VAR_SUBST_REGEX.sub` over a
template, fuelled (each step consumes at least one character, so fuel
`l.length` always suffices — see `substCharsF_isSome`).  A `$` that starts
no match is kept as literal text; matches are replaced by `resolveTok` and
scanning resumes after the match. -/
def substCharsF (env : Env) (t : Dep) : Nat → List Char → Option (Except PyErr (List Char))
  | _, [] => some (.ok [])
  | 0, _ :: _ => none
  | fuel + 1, c :: rest =>
    if c = '$' then
      match matchVar rest with
      | some (tok, r) =>
        match resolveTok env t tok with
        | .error e => some (.error e)
        | .ok s =>
          match substCharsF env t fuel r with
          | none => none
          | some (.error e) => some (.error e)
          | some (.ok tail) => some (.ok (s ++ tail))
      | none =>
        match substCharsF env t fuel rest with
        | none => none
        | some (.error e) => some (.error e)
        | some (.ok tail) => some (.ok (c :: tail))
    else
      match substCharsF env t fuel rest with
      | none => none
      | some (.error e) => some (.error e)
      | some (.ok tail) => some (.ok (c :: tail))

theorem substCharsF_nil (env : Env) (t : Dep) (fuel : Nat) :
    substCharsF env t fuel [] = some (.ok []) := by
  cases fuel <;> rfl

theorem substCharsF_congr (env : Env) (t : Dep) :
    ∀ f1 f2 l, l.length ≤ f1 → l.length ≤ f2 →
      substCharsF env t f1 l = substCharsF env t f2 l := by
  intro f1
  induction f1 with
  | zero =>
    intro f2 l h1 _
    have : l = [] := List.length_eq_zero.mp (Nat.le_zero.mp h1)
    subst this
    rw [substCharsF_nil, substCharsF_nil]
  | succ f ih =>
    intro f2 l h1 h2
    match l, f2 with
    | [], g => rw [substCharsF_nil, substCharsF_nil]
    | c :: rest, 0 => simp at h2
    | c :: rest, g + 1 =>
      simp only [List.length_cons, Nat.succ_le_succ_iff] at h1 h2
      by_cases hc : c = '$'
      · cases hm : matchVar rest with
        | some pr =>
          obtain ⟨tok, r⟩ := pr
          have hr : r.length ≤ rest.length := matchVar_length hm
          simp only [substCharsF, hc, if_true, hm]
          rw [ih g r (le_trans hr h1) (le_trans hr h2)]
        | none =>
          simp only [substCharsF, hc, if_true, hm]
          rw [ih g rest h1 h2]
      · simp only [substCharsF, hc, if_false]
        rw [ih g rest h1 h2]

theorem substCharsF_isSome (env : Env) (t : Dep) :
    ∀ fuel l, l.length ≤ fuel → (substCharsF env t fuel l).isSome := by
  intro fuel
  induction fuel with
  | zero =>
    intro l h1
    have : l = [] := List.length_eq_zero.mp (Nat.le_zero.mp h1)
    subst this
    rfl
  | succ f ih =>
    intro l h1
    match l with
    | [] => rfl
    | c :: rest =>
      simp only [List.length_cons, Nat.succ_le_succ_iff] at h1
      by_cases hc : c = '$'
      · cases hm : matchVar rest with
        | some pr =>
          obtain ⟨tok, r⟩ := pr
          have hr : r.length ≤ rest.length := matchVar_length hm
          simp only [substCharsF, hc, if_true, hm]
          cases hres : resolveTok env t tok with
          | error e => rfl
          | ok s =>
            have := ih r (le_trans hr h1)
            match hrec : substCharsF env t f r with
            | none => rw [hrec] at this; simp at this
            | some (.error e) => simp [hrec]
            | some (.ok tail) => simp [hrec]
        | none =>
          simp only [substCharsF, hc, if_true, hm]
          have := ih rest h1
          match hrec : substCharsF env t f rest with
          | none => rw [hrec] at this; simp at this
          | some (.error e) => simp [hrec]
          | some (.ok tail) => simp [hrec]
      · simp only [substCharsF, hc, if_false]
        have := ih rest h1
        match hrec : substCharsF env t f rest with
        | none => rw [hrec] at this; simp at this
        | some (.error e) => simp [hrec]
        | some (.ok tail) => simp [hrec]

/-- The substitution scan with its canonical (always sufficient) fuel. -/
def substChars (env : Env) (t : Dep) (l : List Char) : Except PyErr (List Char) :=
  (substCharsF env t l.length l).getD (.error .assertFail)

/-- The source's `expand_cmd(t)`: asserts the command is truthy, then
substitutes every placeholder of the template. -/
def expand_cmd (env : Env) (t : Dep) : Except PyErr String :=
  match cmdOf env t with
  | none => .error .assertFail
  | some c =>
    if c = "" then .error .assertFail
    else
      match substChars env t c.data with
      | .error e => .error e
      | .ok l => .ok (String.mk l)

/-! ## Helper lemmas for the scanner -/

theorem word_char_ne {c : Char} (h : isWordChar c = true) :
    c ≠ '$' ∧ c ≠ '(' ∧ c ≠ '\x7b' := by
  refine ⟨?_, ?_, ?_⟩ <;> intro he <;> subst he <;> revert h <;> decide

theorem takeWhile_word_append (nm : List Char) (b : Char) (rest : List Char)
    (hnm : ∀ c ∈ nm, isWordChar c = true) (hb : isWordChar b = false) :
    (nm ++ b :: rest).takeWhile isWordChar = nm ∧
    (nm ++ b :: rest).dropWhile isWordChar = b :: rest := by
  induction nm with
  | nil => simp [List.takeWhile_cons, List.dropWhile_cons, hb]
  | cons c nm ih =>
    have hc : isWordChar c = true := hnm c (by simp)
    have ih' := ih (fun d hd => hnm d (by simp [hd]))
    simp [List.takeWhile_cons, List.dropWhile_cons, hc, ih'.1, ih'.2]

theorem takeWhile_word_all (nm : List Char)
    (hnm : ∀ c ∈ nm, isWordChar c = true) :
    nm.takeWhile isWordChar = nm ∧ nm.dropWhile isWordChar = [] := by
  induction nm with
  | nil => simp
  | cons c nm ih =>
    have hc : isWordChar c = true := hnm c (by simp)
    have ih' := ih (fun d hd => hnm d (by simp [hd]))
    simp [List.takeWhile_cons, List.dropWhile_cons, hc, ih'.1, ih'.2]

theorem matchVar_dollar (rest : List Char) :
    matchVar ('$' :: rest) = some (.dollar, rest) := rfl

theorem matchVar_brace (nm rest : List Char) (hne : nm ≠ [])
    (hw : ∀ c ∈ nm, isWordChar c = true) :
    matchVar ('\x7b' :: (nm ++ '\x7d' :: rest)) = some (.name nm, rest) := by
  have h1 := takeWhile_word_append nm '\x7d' rest hw (by decide)
  simp only [matchVar, if_neg (by decide : ¬('\x7b' : Char) = '$'),
    if_neg (by decide : ¬('\x7b' : Char) = '('), if_pos rfl]
  rw [h1.1, h1.2]
  simp [List.isEmpty_iff, hne]

theorem matchVar_paren (nm rest : List Char) (hne : nm ≠ [])
    (hw : ∀ c ∈ nm, isWordChar c = true) :
    matchVar ('(' :: (nm ++ ')' :: rest)) = some (.name nm, rest) := by
  have h1 := takeWhile_word_append nm ')' rest hw (by decide)
  simp only [matchVar, if_neg (by decide : ¬('(' : Char) = '$'), if_pos rfl]
  rw [h1.1, h1.2]
  simp [List.isEmpty_iff, hne]

theorem matchVar_bare_nil (nm : List Char) (hne : nm ≠ [])
    (hw : ∀ c ∈ nm, isWordChar c = true) :
    matchVar nm = some (.name nm, []) := by
  match nm, hne with
  | c :: nm', _ =>
    have hc : isWordChar c = true := hw c (by simp)
    obtain ⟨h1, h2, h3⟩ := word_char_ne hc
    have h4 := takeWhile_word_all (c :: nm') hw
    simp only [matchVar, if_neg h1, if_neg h2, if_neg h3]
    rw [h4.1, h4.2]
    simp [List.isEmpty_iff]

theorem matchVar_bare (nm : List Char) (b : Char) (rest : List Char) (hne : nm ≠ [])
    (hw : ∀ c ∈ nm, isWordChar c = true) (hb : isWordChar b = false) :
    matchVar (nm ++ b :: rest) = some (.name nm, b :: rest) := by
  match nm, hne with
  | c :: nm', _ =>
    have hc : isWordChar c = true := hw c (by simp)
    obtain ⟨h1, h2, h3⟩ := word_char_ne hc
    have h4 := takeWhile_word_append (c :: nm') b rest hw hb
    rw [List.cons_append]
    simp only [matchVar, if_neg h1, if_neg h2, if_neg h3]
    rw [← List.cons_append, h4.1, h4.2]
    simp [List.isEmpty_iff]

/-! ## Step lemmas for the substitution scan -/

theorem substChars_nil (env : Env) (t : Dep) : substChars env t [] = .ok [] := rfl

theorem substChars_cons_dollar (env : Env) (t : Dep) (l : List Char) :
    substChars env t ('$' :: l) =
      match matchVar l with
      | some (tok, r) =>
        match resolveTok env t tok with
        | .error e => .error e
        | .ok s =>
          match substChars env t r with
          | .error e => .error e
          | .ok tail => .ok (s ++ tail)
      | none =>
        match substChars env t l with
        | .error e => .error e
        | .ok tail => .ok ('$' :: tail)
    := by
  show (substCharsF env t ('$' :: l).length ('$' :: l)).getD (.error .assertFail) = _
  rw [List.length_cons]
  cases hm : matchVar l with
  | some pr =>
    obtain ⟨tok, r⟩ := pr
    have hr := matchVar_length hm
    simp only [substCharsF, if_pos rfl, hm]
    cases hres : resolveTok env t tok with
    | error e => rfl
    | ok s =>
      rw [substCharsF_congr env t l.length r.length r hr le_rfl]
      have hs := substCharsF_isSome env t r.length r le_rfl
      show _ = match (substCharsF env t r.length r).getD (.error .assertFail) with
        | .error e => Except.error e
        | .ok tail => .ok (s ++ tail)
      match hrec : substCharsF env t r.length r with
      | none => rw [hrec] at hs; simp at hs
      | some (.error e) => rfl
      | some (.ok tail) => rfl
  | none =>
    simp only [substCharsF, if_pos rfl, hm]
    have hs := substCharsF_isSome env t l.length l le_rfl
    show _ = match (substCharsF env t l.length l).getD (.error .assertFail) with
      | .error e => Except.error e
      | .ok tail => .ok ('$' :: tail)
    match hrec : substCharsF env t l.length l with
    | none => rw [hrec] at hs; simp at hs
    | some (.error e) => rfl
    | some (.ok tail) => rfl

theorem substChars_cons_other (env : Env) (t : Dep) (c : Char) (l : List Char)
    (hc : c ≠ '$') :
    substChars env t (c :: l) =
      match substChars env t l with
      | .error e => .error e
      | .ok tail => .ok (c :: tail)
    := by
  show (substCharsF env t (c :: l).length (c :: l)).getD (.error .assertFail) = _
  rw [List.length_cons]
  simp only [substCharsF, if_neg hc]
  have hs := substCharsF_isSome env t l.length l le_rfl
  show _ = match (substCharsF env t l.length l).getD (.error .assertFail) with
    | .error e => Except.error e
    | .ok tail => .ok (c :: tail)
  match hrec : substCharsF env t l.length l with
  | none => rw [hrec] at hs; simp at hs
  | some (.error e) => rfl
  | some (.ok tail) => rfl

/-! ## Claims C2 and C7: placeholder resolution -/

/-- C2.  For a placeholder `${NAME}` (NAME one or more word characters)
followed by an arbitrary remainder of the template, `expand_cmd`'s scan
resolves NAME in this order: (1) `OUTPUT` on a `Target` node gives the
node's output path; (2) else a dependency-group name gives the space-joined
`str()` forms of every entry of that group in declared order, repeats
repeated; (3) else the global variable store; (4) else an unresolved
variable error naming NAME.  (`src/pymk/internal.py:152-166`.) -/
theorem c2_expand_resolution_order (env : Env) (t : Dep) (nm rest : List Char)
    (hne : nm ≠ []) (hw : ∀ c ∈ nm, isWordChar c = true) :
    substChars env t ('$' :: '\x7b' :: (nm ++ '\x7d' :: rest)) =
      match (if String.mk nm = "OUTPUT" && isTgt t then
               Except.ok (outputOf env t).data
             else
               match lookupA (dependsOf env t) (String.mk nm) with
               | some ds =>
                 Except.ok (String.intercalate " " (ds.map (depStr env))).data
               | none =>
                 match lookupA env.vars (String.mk nm) with
                 | some v => Except.ok v.data
                 | none => Except.error (PyErr.unsetVar (String.mk nm))) with
      | .error e => .error e
      | .ok s =>
        match substChars env t rest with
        | .error e => .error e
        | .ok tail => .ok (s ++ tail) := by
  rw [substChars_cons_dollar, matchVar_brace nm rest hne hw]
  rfl

/-- Witness for C2: a node whose group `A` holds a path dependency `f`;
`${A}` resolves through priority rule (2). -/
theorem c2_expand_resolution_order_witness :
    ((['A'] : List Char) ≠ [] ∧ ∀ c ∈ (['A'] : List Char), isWordChar c = true) ∧
    substChars
      { tgtData := fun _ => { cmd := "c", output := "o.txt", depends := [] },
        phonyData := fun _ =>
          { name := "p", cmd := some "x", depends := [("A", [.path "f"])] },
        vars := [("B", "b")] }
      (.phony 0) ('$' :: '\x7b' :: (['A'] ++ '\x7d' :: [])) = .ok ['f'] := by
  refine ⟨⟨by decide, by decide⟩, ?_⟩
  rw [c2_expand_resolution_order _ _ _ _ (by decide) (by decide)]
  rfl

/-- C7.  For any NAME of word characters the three placeholder forms
`$NAME`, `$(NAME)` and `${NAME}` resolve to identical substitutions, and
`$$` always produces a literal `$` with no further lookup (the scan resumes
after the escape, so the emitted `$` is never part of a later match).
(`src/pymk/internal.py:137,152-166`.) -/
theorem c7_placeholder_equivalence (env : Env) (t : Dep) (nm : List Char)
    (hne : nm ≠ []) (hw : ∀ c ∈ nm, isWordChar c = true) :
    substChars env t ('$' :: nm) = substChars env t ('$' :: '(' :: (nm ++ [')'])) ∧
    substChars env t ('$' :: nm) = substChars env t ('$' :: '\x7b' :: (nm ++ ['\x7d'])) ∧
    ∀ rest, substChars env t ('$' :: '$' :: rest) =
      match substChars env t rest with
      | .error e => .error e
      | .ok tail => .ok ('$' :: tail) := by
  refine ⟨?_, ?_, ?_⟩
  · rw [substChars_cons_dollar, substChars_cons_dollar,
      matchVar_bare_nil nm hne hw, matchVar_paren nm [] hne hw]
  · rw [substChars_cons_dollar, substChars_cons_dollar,
      matchVar_bare_nil nm hne hw, matchVar_brace nm [] hne hw]
  · intro rest
    rw [substChars_cons_dollar, matchVar_dollar]
    show (match substChars env t rest with
      | .error e => Except.error e
      | .ok tail => .ok (['$'] ++ tail)) = _
    cases substChars env t rest <;> rfl

/-- Witness for C7 at NAME = `A`, with `A = "a"` in the variable store. -/
theorem c7_placeholder_equivalence_witness :
    ((['A'] : List Char) ≠ [] ∧ ∀ c ∈ (['A'] : List Char), isWordChar c = true) ∧
    (substChars
        { tgtData := fun _ => { cmd := "c", output := "o", depends := [] },
          phonyData := fun _ => { name := "p", cmd := some "x", depends := [] },
          vars := [("A", "a"), ("VAR", "v")] }
        (.phony 0) ('$' :: ['A']) =
      substChars
        { tgtData := fun _ => { cmd := "c", output := "o", depends := [] },
          phonyData := fun _ => { name := "p", cmd := some "x", depends := [] },
          vars := [("A", "a"), ("VAR", "v")] }
        (.phony 0) ('$' :: '(' :: (['A'] ++ [')']))) ∧
    substChars
        { tgtData := fun _ => { cmd := "c", output := "o", depends := [] },
          phonyData := fun _ => { name := "p", cmd := some "x", depends := [] },
          vars := [("A", "a"), ("VAR", "v")] }
        (.phony 0) ('$' :: '$' :: "VAR".data) = .ok "$VAR".data := by
  refine ⟨⟨by decide, by decide⟩, ?_, ?_⟩
  · exact (c7_placeholder_equivalence _ _ _ (by decide) (by decide)).1
  · rw [(c7_placeholder_equivalence _ (.phony 0) ['A'] (by decide) (by decide)).2.2 "VAR".data]
    rfl

/-! ## Claim C6: the global variable store and `set_variable` -/

theorem lookupA_setA_self {α β : Type} [DecidableEq α]
    (l : List (α × β)) (k : α) (v : β) : lookupA (setA l k v) k = some v := by
  induction l with
  | nil => simp [setA, lookupA]
  | cons kv rest ih =>
    obtain ⟨k', v'⟩ := kv
    by_cases hk : k' = k
    · simp [setA, lookupA, hk]
    · simp [setA, lookupA, hk, ih]

theorem lookupA_setA_ne {α β : Type} [DecidableEq α]
    (l : List (α × β)) (k' k : α) (v : β) (h : k' ≠ k) :
    lookupA (setA l k' v) k = lookupA l k := by
  induction l with
  | nil => simp [setA, lookupA, h]
  | cons kv rest ih =>
    obtain ⟨k0, v0⟩ := kv
    by_cases hk : k0 = k'
    · simp [setA, lookupA, hk, h]
    · simp only [setA, lookupA, hk, if_false]
      by_cases hk2 : k0 = k
      · simp [lookupA, hk2]
      · simp [lookupA, hk2, ih]

/-- The source's `set_variable(**variables)` (`src/pymk/internal.py:140-144`):
for each binding in order, store it in `VARIABLES` unless the name was
supplied externally on the command line (`ARGS.variables`). -/
def set_variable (args_vars VARS : List (String × String))
    (updates : List (String × String)) : List (String × String) :=
  updates.foldl
    (fun acc kv => if (lookupA args_vars kv.1).isSome then acc else setA acc kv.1 kv.2)
    VARS

/-- Counterexample to C6 as stated: with no external overrides, a first
programmatic `set_variable(A='1')` is overwritten by a later programmatic
`set_variable(A='2')` — the first writer does not win. -/
theorem c6_counterexample :
    lookupA (set_variable [] (set_variable [] [] [("A", "1")]) [("A", "2")]) "A"
      = some "2" ∧ (some "2" : Option String) ≠ some "1" := by
  constructor
  · rfl
  · decide

/-- C6 amended.  Only names present in the external override store
(`ARGS.variables`, the `-D` values) are protected: `set_variable` never
changes their value in `VARIABLES`.  For any other name the latest
programmatic write wins. -/
theorem c6_first_writer_amended (args_vars VARS us : List (String × String))
    (k : String) :
    ((lookupA args_vars k).isSome = true →
      lookupA (set_variable args_vars VARS us) k = lookupA VARS k) ∧
    (∀ v, lookupA args_vars k = none →
      lookupA (set_variable args_vars VARS (us ++ [(k, v)])) k = some v) := by
  constructor
  · intro hk
    induction us generalizing VARS with
    | nil => rfl
    | cons kv us ih =>
      show lookupA (set_variable args_vars
        (if (lookupA args_vars kv.1).isSome then VARS else setA VARS kv.1 kv.2) us) k
          = lookupA VARS k
      by_cases hkv : (lookupA args_vars kv.1).isSome
      · rw [if_pos hkv, ih VARS]
      · rw [if_neg hkv]
        rw [ih (setA VARS kv.1 kv.2)]
        apply lookupA_setA_ne
        intro he
        rw [he] at hkv
        exact hkv hk
  · intro v hk
    show lookupA (List.foldl _ VARS (us ++ [(k, v)])) k = some v
    rw [List.foldl_append]
    show lookupA (if (lookupA args_vars k).isSome then _ else setA _ k v) k = some v
    rw [hk]
    show lookupA (setA _ k v) k = some v
    exact lookupA_setA_self _ k v

/-- Witness for C6 amended: the `-D`-protected name `CC` keeps its override
value, and for the unprotected name `B` the last write wins. -/
theorem c6_first_writer_amended_witness :
    (lookupA [("CC", "gcc")] "CC").isSome = true ∧
    lookupA (set_variable [("CC", "gcc")] [("CC", "gcc")]
      [("CC", "clang"), ("B", "1")]) "CC" = lookupA [("CC", "gcc")] "CC" ∧
    lookupA [("CC", "gcc")] "B" = none ∧
    lookupA (set_variable [("CC", "gcc")] [("CC", "gcc")]
      ([("CC", "clang"), ("B", "1")] ++ [("B", "2")])) "B" = some "2" := by
  refine ⟨by decide, ?_, by decide, ?_⟩
  · exact (c6_first_writer_amended [("CC", "gcc")] [("CC", "gcc")]
      [("CC", "clang"), ("B", "1")] "CC").1 (by decide)
  · exact (c6_first_writer_amended [("CC", "gcc")] [("CC", "gcc")]
      [("CC", "clang"), ("B", "1")] "B").2 "2" (by decide)

/-! ## Claim C1: the staleness checker `up_to_date` (`src/pymk/internal.py:183-196`) -/

/-- Inner loop of `up_to_date`: walk the flattened dependency occurrences;
a `PhonyTarget` dependency forces `False`; other dependencies' mtimes are
read from the `modified_times` cache (a missing entry is a `KeyError`,
modelled as `none`); a dependency newer than the output forces `False`. -/
def utdDeps (cache : List (Dep × Int)) (mtime : Int) : List Dep → Option Bool
  | [] => some true
  | d :: ds =>
    if isPhony d then some false
    else
      match lookupA cache d with
      | none => none
      | some time => if time > mtime then some false else utdDeps cache mtime ds

/-- The source's `up_to_date(t, modified_times)` for the `Target` with id
`i`: stat the output (a missing file means stale), record its mtime in the
cache, then check every direct dependency against it.  Returns the decision
together with the updated cache; `none` models the uncaught `KeyError`. -/
def up_to_date (env : Env) (fs : String → Option Int) (i : Nat)
    (modified_times : List (Dep × Int)) : Option (Bool × List (Dep × Int)) :=
  match fs (env.tgtData i).output with
  | none => some (false, modified_times)
  | some mtime =>
    let cache := setA modified_times (.tgt i) mtime
    match utdDeps cache mtime (allDeps env (.tgt i)) with
    | none => none
    | some b => some (b, cache)

/-- Counterexample to C1 as stated: a `Target` with zero dependencies whose
output exists is judged up-to-date by `src/pymk/internal.py`'s
`up_to_date`, although the claim requires at least one non-empty
dependency group. -/
theorem c1_counterexample :
    up_to_date
      { tgtData := fun _ => { cmd := "c", output := "o", depends := [] },
        phonyData := fun _ => { name := "p", cmd := none, depends := [] },
        vars := [] }
      (fun _ => some 5) 0 []
      = some (true, [(.tgt 0, 5)]) ∧
    dependsOf
      { tgtData := fun _ => { cmd := "c", output := "o", depends := [] },
        phonyData := fun _ => { name := "p", cmd := none, depends := [] },
        vars := [] }
      (.tgt 0) = [] := by
  constructor <;> rfl

theorem utdDeps_spec (cache : List (Dep × Int)) (mtime : Int) :
    ∀ ds b, utdDeps cache mtime ds = some b →
      (b = true ↔ ∀ d ∈ ds, isPhony d = false ∧
        ∃ tm, lookupA cache d = some tm ∧ tm ≤ mtime) := by
  intro ds
  induction ds with
  | nil =>
    intro b hb
    simp only [utdDeps, Option.some.injEq] at hb
    subst hb
    simp
  | cons d ds ih =>
    intro b hb
    simp only [utdDeps] at hb
    by_cases hp : isPhony d
    · rw [if_pos hp, Option.some.injEq] at hb
      subst hb
      constructor
      · intro h; exact absurd h (by decide)
      · intro h
        exact absurd (h d (by simp)).1 (by simp [hp])
    · rw [if_neg hp] at hb
      match hc : lookupA cache d with
      | none => rw [hc] at hb; exact absurd hb (by simp)
      | some time =>
        rw [hc] at hb
        dsimp only at hb
        by_cases ht : time > mtime
        · rw [if_pos ht, Option.some.injEq] at hb
          subst hb
          constructor
          · intro h; exact absurd h (by decide)
          · intro h
            obtain ⟨tm, htm, hle⟩ := (h d (by simp)).2
            rw [hc, Option.some.injEq] at htm
            omega
        · rw [if_neg ht] at hb
          rw [ih b hb]
          constructor
          · intro h
            intro d' hd'
            rcases List.mem_cons.mp hd' with he | hm
            · subst he
              exact ⟨by simp [hp], time, hc, by omega⟩
            · exact h d' hm
          · intro h d' hd'
            exact h d' (by simp [hd'])

/-- C1 amended.  `up_to_date(t, modified_times)` (when it does not crash
with a `KeyError`) returns true iff the output exists on disk, no direct
dependency is a `PhonyTarget`, and every direct dependency's cached
modification time is at most the output's.  A `Target` with zero
dependencies (or only empty groups) whose output exists IS up-to-date —
the code has no non-empty-group requirement. -/
theorem c1_up_to_date_amended (env : Env) (fs : String → Option Int) (i : Nat)
    (cache : List (Dep × Int)) (b : Bool) (cache' : List (Dep × Int))
    (h : up_to_date env fs i cache = some (b, cache')) :
    b = true ↔ ∃ m, fs (env.tgtData i).output = some m ∧
      ∀ d ∈ allDeps env (.tgt i), isPhony d = false ∧
        ∃ tm, lookupA (setA cache (.tgt i) m) d = some tm ∧ tm ≤ m := by
  unfold up_to_date at h
  match hfs : fs (env.tgtData i).output with
  | none =>
    rw [hfs] at h
    simp only [Option.some.injEq, Prod.mk.injEq] at h
    rw [← h.1]
    constructor
    · intro hf; exact absurd hf (by decide)
    · rintro ⟨m, hm, -⟩
      exact absurd hm (by simp)
  | some mtime =>
    rw [hfs] at h
    simp only at h
    match hu : utdDeps (setA cache (.tgt i) mtime) mtime (allDeps env (.tgt i)) with
    | none => rw [hu] at h; exact absurd h (by simp)
    | some b' =>
      rw [hu] at h
      simp only [Option.some.injEq, Prod.mk.injEq] at h
      rw [← h.1]
      rw [utdDeps_spec _ _ _ _ hu]
      constructor
      · intro hall
        exact ⟨mtime, rfl, hall⟩
      · rintro ⟨m, hm, hall⟩
        rw [Option.some.injEq] at hm
        subst hm
        exact hall

/-- Witness for C1 amended: a `Target` whose single path dependency has a
cached mtime 3 and whose output has mtime 5 is up-to-date, and the
characterization's right-hand side holds. -/
theorem c1_up_to_date_amended_witness :
    up_to_date
      { tgtData := fun _ =>
          { cmd := "c", output := "o", depends := [("S", [.path "d"])] },
        phonyData := fun _ => { name := "p", cmd := none, depends := [] },
        vars := [] }
      (fun p => if p = "o" then some 5 else some 3) 0 [(.path "d", 3)]
      = some (true, [(.path "d", 3), (.tgt 0, 5)]) ∧
    (∃ m, (fun p => if p = "o" then some 5 else some (3 : Int)) "o" = some m ∧
      ∀ d ∈ allDeps
        { tgtData := fun _ =>
            { cmd := "c", output := "o", depends := [("S", [.path "d"])] },
          phonyData := fun _ => { name := "p", cmd := none, depends := [] },
          vars := [] } (.tgt 0),
        isPhony d = false ∧
          ∃ tm, lookupA (setA [(.path "d", 3)] (.tgt 0) m) d = some tm ∧ tm ≤ m) := by
  refine ⟨rfl, ?_⟩
  exact (c1_up_to_date_amended
    { tgtData := fun _ =>
        { cmd := "c", output := "o", depends := [("S", [.path "d"])] },
      phonyData := fun _ => { name := "p", cmd := none, depends := [] },
      vars := [] }
    (fun p => if p = "o" then some 5 else some 3) 0 [(.path "d", 3)] true
    [(.path "d", 3), (.tgt 0, 5)] rfl).mp rfl

/-! ## Dependency graph builder (`build_execution_dag`, `src/pymk/internal.py:199-218`) -/

/-- Record `t` as a dependant of `key` in the reverse index:
`if target not in dag: dag[target] = []` followed by `dag[target].append(t)`. -/
def dag_add (dag : List (Dep × List Dep)) (key t : Dep) : List (Dep × List Dep) :=
  match lookupA dag key with
  | some l => setA dag key (l ++ [t])
  | none => dag ++ [(key, [t])]

/-- The leaf test of the work-list loop:
`isinstance(t, Path) or not t.depends` (an empty depends dict). -/
def is_leaf (env : Env) : Dep → Bool
  | .path _ => true
  | .tgt i => decide ((env.tgtData i).depends = [])
  | .phony i => decide ((env.phonyData i).depends = [])

/-- Process the dependency occurrences of one expanded node `t`: each
occurrence is recorded in the reverse index, and enqueued (and marked seen)
when not yet seen.  The queue is a stack whose head is popped next
(`deque.append`/`deque.pop` both act on the right end). -/
def expand_deps (t : Dep) :
    List Dep → List (Dep × List Dep) × List Dep × List Dep →
    List (Dep × List Dep) × List Dep × List Dep
  | [], st => st
  | d :: ds, (dag, seen, q) =>
    let dag' := dag_add dag d t
    if d ∈ seen then expand_deps t ds (dag', seen, q)
    else expand_deps t ds (dag', seen ++ [d], d :: q)

/-- The work-list loop of `build_execution_dag`, fuelled by the number of
iterations; returns the reverse index, the leaf list and (for the proofs)
the final `seen` set, which the source drops on return. -/
def build_dag_loop (env : Env) :
    Nat → List Dep → List Dep → List (Dep × List Dep) → List Dep →
    Option (List (Dep × List Dep) × List Dep × List Dep)
  | _, [], seen, dag, leafs => some (dag, leafs, seen)
  | 0, _ :: _, _, _, _ => none
  | fuel + 1, t :: q', seen, dag, leafs =>
    if is_leaf env t then build_dag_loop env fuel q' seen dag (leafs ++ [t])
    else
      match expand_deps t (allDeps env t) (dag, seen, q') with
      | (dag', seen', q'') => build_dag_loop env fuel q'' seen' dag' leafs

/-- The source's `build_execution_dag(targets)`: the deque initialised from
the roots pops from the right, so the loop consumes `targets.reverse` as a
stack; the function returns `(dag, leafs)`. -/
def build_execution_dag (env : Env) (fuel : Nat) (targets : List Dep) :
    Option (List (Dep × List Dep) × List Dep) :=
  match build_dag_loop env fuel targets.reverse [] [] [] with
  | none => none
  | some (dag, leafs, _) => some (dag, leafs)

/-! ## The `src/src/module.py` evolution of the same function (claim C9) -/

/-- Reverse-index update of `src/src/module.py:105-124` (line-identical to
the internal.py version). -/
def dag_add_m (dag : List (Dep × List Dep)) (key t : Dep) : List (Dep × List Dep) :=
  match lookupA dag key with
  | some l => setA dag key (l ++ [t])
  | none => dag ++ [(key, [t])]

/-- Dependency-processing step of the module.py work-list loop. -/
def expand_deps_m (t : Dep) :
    List Dep → List (Dep × List Dep) × List Dep × List Dep →
    List (Dep × List Dep) × List Dep × List Dep
  | [], st => st
  | d :: ds, (dag, seen, q) =>
    let dag' := dag_add_m dag d t
    if d ∈ seen then expand_deps_m t ds (dag', seen, q)
    else expand_deps_m t ds (dag', seen ++ [d], d :: q)

/-- Work-list loop of module.py's `build_execution_dag`. -/
def build_dag_loop_m (env : Env) :
    Nat → List Dep → List Dep → List (Dep × List Dep) → List Dep →
    Option (List (Dep × List Dep) × List Dep × List Dep)
  | _, [], seen, dag, leafs => some (dag, leafs, seen)
  | 0, _ :: _, _, _, _ => none
  | fuel + 1, t :: q', seen, dag, leafs =>
    if is_leaf env t then build_dag_loop_m env fuel q' seen dag (leafs ++ [t])
    else
      match expand_deps_m t (allDeps env t) (dag, seen, q') with
      | (dag', seen', q'') => build_dag_loop_m env fuel q'' seen' dag' leafs

/-- The `build_execution_dag` of `src/src/module.py`. -/
def build_execution_dag_m (env : Env) (fuel : Nat) (targets : List Dep) :
    Option (List (Dep × List Dep) × List Dep) :=
  match build_dag_loop_m env fuel targets.reverse [] [] [] with
  | none => none
  | some (dag, leafs, _) => some (dag, leafs)

theorem expand_deps_m_eq (t : Dep) :
    ∀ ds st, expand_deps_m t ds st = expand_deps t ds st := by
  intro ds
  induction ds with
  | nil => intro st; rfl
  | cons d ds ih =>
    intro st
    obtain ⟨dag, seen, q⟩ := st
    show (if d ∈ seen then expand_deps_m t ds (dag_add_m dag d t, seen, q)
      else expand_deps_m t ds (dag_add_m dag d t, seen ++ [d], d :: q)) = _
    by_cases hd : d ∈ seen
    · rw [if_pos hd, ih]
      show _ = expand_deps t (d :: ds) (dag, seen, q)
      show _ = (if d ∈ seen then expand_deps t ds (dag_add dag d t, seen, q)
        else expand_deps t ds (dag_add dag d t, seen ++ [d], d :: q))
      rw [if_pos hd]
      rfl
    · rw [if_neg hd, ih]
      show _ = (if d ∈ seen then expand_deps t ds (dag_add dag d t, seen, q)
        else expand_deps t ds (dag_add dag d t, seen ++ [d], d :: q))
      rw [if_neg hd]
      rfl

theorem build_dag_loop_m_eq (env : Env) :
    ∀ fuel q seen dag leafs,
      build_dag_loop_m env fuel q seen dag leafs =
        build_dag_loop env fuel q seen dag leafs := by
  intro fuel
  induction fuel with
  | zero =>
    intro q seen dag leafs
    match q with
    | [] => rfl
    | t :: q' => rfl
  | succ f ih =>
    intro q seen dag leafs
    match q with
    | [] => rfl
    | t :: q' =>
      show (if is_leaf env t then build_dag_loop_m env f q' seen dag (leafs ++ [t])
        else _) = (if is_leaf env t then build_dag_loop env f q' seen dag (leafs ++ [t])
        else _)
      by_cases hl : is_leaf env t
      · rw [if_pos hl, if_pos hl, ih]
      · rw [if_neg hl, if_neg hl, expand_deps_m_eq]
        match expand_deps t (allDeps env t) (dag, seen, q') with
        | (dag', seen', q'') => exact ih q'' seen' dag' leafs

/-- C9.  The two evolutions of the graph builder are extensionally equal:
for every environment, fuel and root list, `build_execution_dag` in
`src/src/module.py` and in `src/pymk/internal.py` return the same reverse
index and the same leaf list. -/
theorem c9_build_dag_refinement (env : Env) (fuel : Nat) (targets : List Dep) :
    build_execution_dag_m env fuel targets = build_execution_dag env fuel targets := by
  unfold build_execution_dag_m build_execution_dag
  rw [build_dag_loop_m_eq]

/-! ## Reachability and the leaf-set characterization (claim C8) -/

/-- Reachability from the requested roots: a root is reachable, and so is
every direct dependency occurrence of a reachable node. -/
inductive Reach (env : Env) (roots : List Dep) : Dep → Prop
  | root {x : Dep} : x ∈ roots → Reach env roots x
  | step {t x : Dep} : Reach env roots t → x ∈ allDeps env t → Reach env roots x

theorem is_leaf_no_deps {env : Env} {t : Dep} (h : is_leaf env t = true) :
    allDeps env t = [] := by
  match t with
  | .path p => rfl
  | .tgt i =>
    simp only [is_leaf, decide_eq_true_eq] at h
    simp [allDeps, dependsOf, h, groupDeps]
  | .phony i =>
    simp only [is_leaf, decide_eq_true_eq] at h
    simp [allDeps, dependsOf, h, groupDeps]

theorem expand_deps_q_mono (t : Dep) :
    ∀ ds dag seen q x, x ∈ q → x ∈ (expand_deps t ds (dag, seen, q)).2.2 := by
  intro ds
  induction ds with
  | nil => intro dag seen q x hx; exact hx
  | cons d ds ih =>
    intro dag seen q x hx
    simp only [expand_deps]
    by_cases hd : d ∈ seen
    · rw [if_pos hd]; exact ih _ _ _ x hx
    · rw [if_neg hd]; exact ih _ _ _ x (List.mem_cons_of_mem d hx)

theorem expand_deps_seen_mono (t : Dep) :
    ∀ ds dag seen q x, x ∈ seen → x ∈ (expand_deps t ds (dag, seen, q)).2.1 := by
  intro ds
  induction ds with
  | nil => intro dag seen q x hx; exact hx
  | cons d ds ih =>
    intro dag seen q x hx
    simp only [expand_deps]
    by_cases hd : d ∈ seen
    · rw [if_pos hd]; exact ih _ _ _ x hx
    · rw [if_neg hd]; exact ih _ _ _ x (by simp [hx])

theorem expand_deps_seen_adds (t : Dep) :
    ∀ ds dag seen q d0, d0 ∈ ds → d0 ∈ (expand_deps t ds (dag, seen, q)).2.1 := by
  intro ds
  induction ds with
  | nil => intro dag seen q d0 h; exact absurd h (by simp)
  | cons d ds ih =>
    intro dag seen q d0 h
    simp only [expand_deps]
    rcases List.mem_cons.mp h with he | hm
    · subst he
      by_cases hd : d0 ∈ seen
      · rw [if_pos hd]; exact expand_deps_seen_mono t ds _ _ _ d0 hd
      · rw [if_neg hd]; exact expand_deps_seen_mono t ds _ _ _ d0 (by simp)
    · by_cases hd : d ∈ seen
      · rw [if_pos hd]; exact ih _ _ _ d0 hm
      · rw [if_neg hd]; exact ih _ _ _ d0 hm

theorem expand_deps_seen_src (t : Dep) :
    ∀ ds dag seen q x, x ∈ (expand_deps t ds (dag, seen, q)).2.1 →
      x ∈ seen ∨ x ∈ (expand_deps t ds (dag, seen, q)).2.2 := by
  intro ds
  induction ds with
  | nil => intro dag seen q x hx; exact Or.inl hx
  | cons d ds ih =>
    intro dag seen q x hx
    simp only [expand_deps] at hx ⊢
    by_cases hd : d ∈ seen
    · rw [if_pos hd] at hx ⊢
      exact ih _ _ _ x hx
    · rw [if_neg hd] at hx ⊢
      rcases ih _ _ _ x hx with h | h
      · rcases List.mem_append.mp h with hs | he
        · exact Or.inl hs
        · right
          have : x = d := by simpa using he
          subst this
          exact expand_deps_q_mono t ds _ _ _ x (by simp)
      · exact Or.inr h

theorem expand_deps_q_src (t : Dep) :
    ∀ ds dag seen q x, x ∈ (expand_deps t ds (dag, seen, q)).2.2 →
      x ∈ q ∨ x ∈ ds := by
  intro ds
  induction ds with
  | nil => intro dag seen q x hx; exact Or.inl hx
  | cons d ds ih =>
    intro dag seen q x hx
    simp only [expand_deps] at hx
    by_cases hd : d ∈ seen
    · rw [if_pos hd] at hx
      rcases ih _ _ _ x hx with h | h
      · exact Or.inl h
      · exact Or.inr (List.mem_cons_of_mem d h)
    · rw [if_neg hd] at hx
      rcases ih _ _ _ x hx with h | h
      · rcases List.mem_cons.mp h with he | hq
        · exact Or.inr (by simp [he])
        · exact Or.inl hq
      · exact Or.inr (List.mem_cons_of_mem d h)

theorem build_dag_loop_nil (env : Env) (fuel : Nat) (seen : List Dep)
    (dag : List (Dep × List Dep)) (leafs : List Dep) :
    build_dag_loop env fuel [] seen dag leafs = some (dag, leafs, seen) := by
  cases fuel <;> rfl

theorem build_dag_loop_seen_mono (env : Env) :
    ∀ fuel q seen dag leafs dag' leafs' seen',
      build_dag_loop env fuel q seen dag leafs = some (dag', leafs', seen') →
      ∀ x, x ∈ seen → x ∈ seen' := by
  intro fuel
  induction fuel with
  | zero =>
    intro q seen dag leafs dag' leafs' seen' h x hx
    match q with
    | [] =>
      rw [build_dag_loop_nil] at h
      simp only [Option.some.injEq, Prod.mk.injEq] at h
      rw [← h.2.2]; exact hx
    | t :: q' => exact absurd h (by simp [build_dag_loop])
  | succ f ih =>
    intro q seen dag leafs dag' leafs' seen' h x hx
    match q with
    | [] =>
      rw [build_dag_loop_nil] at h
      simp only [Option.some.injEq, Prod.mk.injEq] at h
      rw [← h.2.2]; exact hx
    | t :: q' =>
      simp only [build_dag_loop] at h
      by_cases hl : is_leaf env t
      · rw [if_pos hl] at h
        exact ih _ _ _ _ _ _ _ h x hx
      · rw [if_neg hl] at h
        exact ih _ _ _ _ _ _ _ h x (expand_deps_seen_mono t _ _ _ _ x hx)

theorem build_dag_loop_leafs_mono (env : Env) :
    ∀ fuel q seen dag leafs dag' leafs' seen',
      build_dag_loop env fuel q seen dag leafs = some (dag', leafs', seen') →
      ∀ x, x ∈ leafs → x ∈ leafs' := by
  intro fuel
  induction fuel with
  | zero =>
    intro q seen dag leafs dag' leafs' seen' h x hx
    match q with
    | [] =>
      rw [build_dag_loop_nil] at h
      simp only [Option.some.injEq, Prod.mk.injEq] at h
      rw [← h.2.1]; exact hx
    | t :: q' => exact absurd h (by simp [build_dag_loop])
  | succ f ih =>
    intro q seen dag leafs dag' leafs' seen' h x hx
    match q with
    | [] =>
      rw [build_dag_loop_nil] at h
      simp only [Option.some.injEq, Prod.mk.injEq] at h
      rw [← h.2.1]; exact hx
    | t :: q' =>
      simp only [build_dag_loop] at h
      by_cases hl : is_leaf env t
      · rw [if_pos hl] at h
        exact ih _ _ _ _ _ _ _ h x (by simp [hx])
      · rw [if_neg hl] at h
        exact ih _ _ _ _ _ _ _ h x hx

theorem build_dag_loop_sound (env : Env) (roots : List Dep) :
    ∀ fuel q seen dag leafs dag' leafs' seen',
      build_dag_loop env fuel q seen dag leafs = some (dag', leafs', seen') →
      (∀ x ∈ q, Reach env roots x) →
      (∀ x ∈ leafs, Reach env roots x ∧ is_leaf env x = true) →
      ∀ x ∈ leafs', Reach env roots x ∧ is_leaf env x = true := by
  intro fuel
  induction fuel with
  | zero =>
    intro q seen dag leafs dag' leafs' seen' h hq hleafs x hx
    match q with
    | [] =>
      rw [build_dag_loop_nil] at h
      simp only [Option.some.injEq, Prod.mk.injEq] at h
      rw [← h.2.1] at hx
      exact hleafs x hx
    | t :: q' => exact absurd h (by simp [build_dag_loop])
  | succ f ih =>
    intro q seen dag leafs dag' leafs' seen' h hq hleafs x hx
    match q with
    | [] =>
      rw [build_dag_loop_nil] at h
      simp only [Option.some.injEq, Prod.mk.injEq] at h
      rw [← h.2.1] at hx
      exact hleafs x hx
    | t :: q' =>
      simp only [build_dag_loop] at h
      by_cases hl : is_leaf env t
      · rw [if_pos hl] at h
        refine ih _ _ _ _ _ _ _ h (fun y hy => hq y (by simp [hy])) ?_ x hx
        intro y hy
        rcases List.mem_append.mp hy with hm | hm
        · exact hleafs y hm
        · have : y = t := by simpa using hm
          subst this
          exact ⟨hq y (by simp), hl⟩
      · rw [if_neg hl] at h
        refine ih _ _ _ _ _ _ _ h ?_ hleafs x hx
        intro y hy
        rcases expand_deps_q_src t _ _ _ _ y hy with hm | hm
        · exact hq y (by simp [hm])
        · exact Reach.step (hq t (by simp)) hm

theorem build_dag_loop_complete (env : Env) :
    ∀ fuel q seen dag leafs dag' leafs' seen',
      build_dag_loop env fuel q seen dag leafs = some (dag', leafs', seen') →
      (∀ y ∈ seen, y ∈ q ∨ ((is_leaf env y = true → y ∈ leafs) ∧
        (is_leaf env y = false → ∀ d ∈ allDeps env y, d ∈ seen))) →
      ∀ x, (x ∈ q ∨ x ∈ seen') →
        (is_leaf env x = true → x ∈ leafs') ∧
        (is_leaf env x = false → ∀ d ∈ allDeps env x, d ∈ seen') := by
  intro fuel
  induction fuel with
  | zero =>
    intro q seen dag leafs dag' leafs' seen' h hinv x hx
    match q with
    | [] =>
      rw [build_dag_loop_nil] at h
      simp only [Option.some.injEq, Prod.mk.injEq] at h
      obtain ⟨hd, hlf, hsn⟩ := h
      subst hd; subst hlf; subst hsn
      rcases hx with hx | hx
      · exact absurd hx (List.not_mem_nil x)
      · rcases hinv x hx with hq | hp
        · exact absurd hq (List.not_mem_nil x)
        · exact hp
    | t :: q' => exact absurd h (by simp [build_dag_loop])
  | succ f ih =>
    intro q seen dag leafs dag' leafs' seen' h hinv x hx
    match q with
    | [] =>
      rw [build_dag_loop_nil] at h
      simp only [Option.some.injEq, Prod.mk.injEq] at h
      obtain ⟨hd, hlf, hsn⟩ := h
      subst hd; subst hlf; subst hsn
      rcases hx with hx | hx
      · exact absurd hx (List.not_mem_nil x)
      · rcases hinv x hx with hq | hp
        · exact absurd hq (List.not_mem_nil x)
        · exact hp
    | t :: q' =>
      simp only [build_dag_loop] at h
      by_cases hl : is_leaf env t
      · rw [if_pos hl] at h
        have hinv' : ∀ y ∈ seen, y ∈ q' ∨
            ((is_leaf env y = true → y ∈ leafs ++ [t]) ∧
             (is_leaf env y = false → ∀ d ∈ allDeps env y, d ∈ seen)) := by
          intro y hy
          rcases hinv y hy with hq | hp
          · rcases List.mem_cons.mp hq with he | hm
            · subst he
              right
              exact ⟨fun _ => by simp, fun hf => absurd hl (by simp [hf])⟩
            · exact Or.inl hm
          · exact Or.inr ⟨fun ht => by simp [hp.1 ht], hp.2⟩
        rcases hx with hx | hx
        · rcases List.mem_cons.mp hx with he | hm
          · subst he
            refine ⟨fun _ => ?_, fun hf => absurd hl (by simp [hf])⟩
            exact build_dag_loop_leafs_mono env _ _ _ _ _ _ _ _ h x (by simp)
          · exact ih _ _ _ _ _ _ _ h hinv' x (Or.inl hm)
        · exact ih _ _ _ _ _ _ _ h hinv' x (Or.inr hx)
      · rw [if_neg hl] at h
        have hlf : is_leaf env t = false := by simpa using hl
        have hinv' : ∀ y ∈ (expand_deps t (allDeps env t) (dag, seen, q')).2.1,
            y ∈ (expand_deps t (allDeps env t) (dag, seen, q')).2.2 ∨
            ((is_leaf env y = true → y ∈ leafs) ∧
             (is_leaf env y = false → ∀ d ∈ allDeps env y,
               d ∈ (expand_deps t (allDeps env t) (dag, seen, q')).2.1)) := by
          intro y hy
          rcases expand_deps_seen_src t _ _ _ _ y hy with hs | hqn
          · rcases hinv y hs with hq | hp
            · rcases List.mem_cons.mp hq with he | hm
              · subst he
                right
                refine ⟨fun ht => absurd hlf (by simp [ht]), fun _ => ?_⟩
                intro d hd
                exact expand_deps_seen_adds y _ _ _ _ d hd
              · exact Or.inl (expand_deps_q_mono t _ _ _ _ y hm)
            · right
              refine ⟨hp.1, fun hf d hd => ?_⟩
              exact expand_deps_seen_mono t _ _ _ _ d (hp.2 hf d hd)
          · exact Or.inl hqn
        rcases hx with hx | hx
        · rcases List.mem_cons.mp hx with he | hm
          · subst he
            refine ⟨fun ht => absurd hlf (by simp [ht]), fun _ d hd => ?_⟩
            have hd1 : d ∈ (expand_deps x (allDeps env x) (dag, seen, q')).2.1 :=
              expand_deps_seen_adds x _ _ _ _ d hd
            exact build_dag_loop_seen_mono env _ _ _ _ _ _ _ _ h d hd1
          · have hm' : x ∈ (expand_deps t (allDeps env t) (dag, seen, q')).2.2 :=
              expand_deps_q_mono t _ _ _ _ x hm
            exact ih _ _ _ _ _ _ _ h hinv' x (Or.inl hm')
        · exact ih _ _ _ _ _ _ _ h hinv' x (Or.inr hx)

/-- Counterexample to C8 as stated: a requested root whose only dependency
group is the empty sequence is expanded as a NON-leaf — the leaf list comes
back empty although the claim requires every reachable node with no
non-empty dependency group (including all-empty groups) to be in it. -/
theorem c8_counterexample :
    build_execution_dag
      { tgtData := fun _ => { cmd := "c", output := "o", depends := [] },
        phonyData := fun _ => { name := "r", cmd := some "x", depends := [("G", [])] },
        vars := [] } 9 [.phony 0] = some ([], []) ∧
    dependsOf
      { tgtData := fun _ => { cmd := "c", output := "o", depends := [] },
        phonyData := fun _ => { name := "r", cmd := some "x", depends := [("G", [])] },
        vars := [] } (.phony 0) = [("G", [])] ∧
    (Dep.phony 0) ∉ ([] : List Dep) := by
  refine ⟨rfl, rfl, by simp⟩

/-- C8 amended.  The leaf list of `build_execution_dag` consists exactly of
the reachable nodes whose leaf test passes: the reachable `Path`s together
with every reachable `Target`/`PhonyTarget` whose `depends` dict is EMPTY.
A node whose dependency groups are all empty sequences has a non-empty
(truthy) `depends` dict, is treated as an inner node, and is NOT a leaf. -/
theorem c8_leaf_set_amended (env : Env) (fuel : Nat) (roots : List Dep)
    (dag : List (Dep × List Dep)) (leafs : List Dep)
    (h : build_execution_dag env fuel roots = some (dag, leafs)) :
    ∀ x, x ∈ leafs ↔ Reach env roots x ∧ is_leaf env x = true := by
  unfold build_execution_dag at h
  match hloop : build_dag_loop env fuel roots.reverse [] [] [] with
  | none => rw [hloop] at h; exact absurd h (by simp)
  | some (dag0, leafs0, seen0) =>
    rw [hloop] at h
    simp only [Option.some.injEq, Prod.mk.injEq] at h
    obtain ⟨hd, hlf⟩ := h
    subst hd; subst hlf
    intro x
    constructor
    · intro hx
      exact build_dag_loop_sound env roots fuel _ _ _ _ _ _ _ hloop
        (fun y hy => Reach.root (List.mem_reverse.mp hy))
        (fun y hy => absurd hy (List.not_mem_nil y)) x hx
    · rintro ⟨hr, hl⟩
      have hans : ∀ y, Reach env roots y →
          (is_leaf env y = true → y ∈ leafs0) ∧
          (is_leaf env y = false → ∀ d ∈ allDeps env y, d ∈ seen0) := by
        intro y hy
        induction hy with
        | root hmem =>
          exact build_dag_loop_complete env fuel _ _ _ _ _ _ _ hloop
            (fun z hz => absurd hz (List.not_mem_nil z)) _
            (Or.inl (List.mem_reverse.mpr hmem))
        | step hreach hdep ihp =>
          rename_i t z
          cases hlt : is_leaf env t with
          | true =>
            rw [is_leaf_no_deps hlt] at hdep
            exact absurd hdep (List.not_mem_nil _)
          | false =>
            have hz : z ∈ seen0 := ihp.2 hlt z hdep
            exact build_dag_loop_complete env fuel _ _ _ _ _ _ _ hloop
              (fun w hw => absurd hw (List.not_mem_nil w)) z (Or.inr hz)
      exact (hans x hr).1 hl

/-- Witness for C8 amended: a two-level graph whose leaf list is exactly
its two reachable paths; membership of `Path "a"` satisfies the
characterization. -/
theorem c8_leaf_set_amended_witness :
    build_execution_dag
      { tgtData := fun _ => { cmd := "c", output := "o1", depends := [("S", [.path "s"])] },
        phonyData := fun _ =>
          { name := "r", cmd := none, depends := [("G", [.path "a", .tgt 1])] },
        vars := [] } 9 [.phony 0] =
      some ([(.path "a", [.phony 0]), (.tgt 1, [.phony 0]), (.path "s", [.tgt 1])],
        [.path "s", .path "a"]) ∧
    ((Dep.path "a") ∈ ([.path "s", .path "a"] : List Dep) ↔
      Reach
        { tgtData := fun _ => { cmd := "c", output := "o1", depends := [("S", [.path "s"])] },
          phonyData := fun _ =>
            { name := "r", cmd := none, depends := [("G", [.path "a", .tgt 1])] },
          vars := [] } [.phony 0] (.path "a") ∧
      is_leaf
        { tgtData := fun _ => { cmd := "c", output := "o1", depends := [("S", [.path "s"])] },
          phonyData := fun _ =>
            { name := "r", cmd := none, depends := [("G", [.path "a", .tgt 1])] },
          vars := [] } (.path "a") = true) := by
  refine ⟨rfl, ?_⟩
  exact c8_leaf_set_amended
    { tgtData := fun _ => { cmd := "c", output := "o1", depends := [("S", [.path "s"])] },
      phonyData := fun _ =>
        { name := "r", cmd := none, depends := [("G", [.path "a", .tgt 1])] },
      vars := [] } 9 [.phony 0]
    [(.path "a", [.phony 0]), (.tgt 1, [.phony 0]), (.path "s", [.tgt 1])]
    [.path "s", .path "a"] rfl (.path "a")

/-! ## The concurrent scheduler (`TargetExecutor`, `src/pymk/internal.py:221-310`)

The coordinator thread is modelled deterministically against an `Oracle`
that resolves every source of nondeterminism: filesystem answers for each
successive stat/exists query, the exit status of each completed command,
and which outstanding future the coordinator observes next.  Python's
`concurrent.futures.wait` returns a batch that the single coordinator
thread then processes sequentially, so observing one completion at a time
loses no behaviour.  The ghost `events` log records what happened, in
order; the code's state transitions append to it and never read it. -/

/-- Ghost trace events of a scheduler run: a command dispatch
(`exec_command`), a Finished transition (entry into the dependant loop of
`on_finished`), a pending-counter initialization, a decrement (logging the
new value), and a Ready transition via a counter reaching zero
(`run_target` called from `on_finished`). -/
inductive Event where
  | exec : Dep → Event
  | finish : Dep → Event
  | init : Dep → Int → Event
  | decr : Dep → Int → Event
  | runReady : Dep → Event
deriving DecidableEq

/-- Resolution of the run's nondeterminism. -/
structure Oracle where
  fs : Nat → String → Option Int
  ok : Nat → Bool
  pick : Nat → Nat

/-- State of the `TargetExecutor` object (`src/pymk/internal.py:221-233`),
plus the oracle query clock and the ghost event log. -/
structure TargetExecutor where
  futures : List Dep
  dependants : List (Dep × List Dep)
  deps_left : List (Dep × Int)
  modified_times : List (Dep × Int)
  clock : Nat
  events : List Event
deriving DecidableEq

/-- Pending-counter initial value:
`sum(len(x) for x in dependant.depends.values())`. -/
def total_deps (env : Env) (d : Dep) : Int :=
  ((dependsOf env d).map (fun g => (g.2.length : Int))).sum

/-- The `exec_command` method: submit the node's command to the pool. -/
def exec_command (t : Dep) (s : TargetExecutor) : TargetExecutor :=
  { s with futures := s.futures ++ [t], events := s.events ++ [.exec t] }

/-- The path `modified_time` stats: the path itself or a `Target`'s output. -/
def mtPath (env : Env) : Dep → String
  | .path p => p
  | .tgt i => (env.tgtData i).output
  | .phony i => (env.phonyData i).name

/-- Which mutually recursive method is running: `on_finished`, its
dependant loop, or `run_target`. -/
inductive Call where
  | fin : Dep → Call
  | floop : List Dep → Call
  | runT : Dep → Call

/-- The readiness cascade of `on_finished` / `run_target`
(`src/pymk/internal.py:238-262`), fuelled.

`.fin t`: record `modified_time(t)` for non-phony nodes (a missing file
raises `Expected {t} to exist`), then decrement every recorded dependant,
initialising a counter on first reference to `total_deps`, and call
`run_target` on a dependant exactly when its counter reaches zero.

`.runT t`: a `Path` must exist; a `Target` is skipped (straight to
Finished) when `up_to_date`, else dispatched; a `PhonyTarget` with a
truthy command is dispatched, else goes straight to Finished. -/
def sched_step (env : Env) (o : Oracle) :
    Nat → Call → TargetExecutor → Option (Except (PyErr × TargetExecutor) TargetExecutor)
  | 0, _, _ => none
  | fuel + 1, .fin t, s =>
    match t with
    | .phony _ =>
      let s1 := { s with events := s.events ++ [.finish t] }
      sched_step env o fuel (.floop ((lookupA s1.dependants t).getD [])) s1
    | _ =>
      match o.fs s.clock (mtPath env t) with
      | none => some (.error (.expectedExist t, { s with clock := s.clock + 1 }))
      | some m =>
        let s1 := { s with clock := s.clock + 1,
                           modified_times := setA s.modified_times t m,
                           events := s.events ++ [.finish t] }
        sched_step env o fuel (.floop ((lookupA s1.dependants t).getD [])) s1
  | _fuel + 1, .floop [], s => some (.ok s)
  | fuel + 1, .floop (d :: ds), s =>
    let s1 : TargetExecutor := match lookupA s.deps_left d with
      | some _ => s
      | none => { s with deps_left := s.deps_left ++ [(d, total_deps env d)],
                         events := s.events ++ [.init d (total_deps env d)] }
    let v : Int := (lookupA s1.deps_left d).getD 0 - 1
    let s2 := { s1 with deps_left := setA s1.deps_left d v,
                        events := s1.events ++
                          (if v = 0 then [.decr d v, .runReady d] else [.decr d v]) }
    if v = 0 then
      match sched_step env o fuel (.runT d) s2 with
      | none => none
      | some (.error e) => some (.error e)
      | some (.ok s3) => sched_step env o fuel (.floop ds) s3
    else sched_step env o fuel (.floop ds) s2
  | fuel + 1, .runT t, s =>
    match t with
    | .path p =>
      match o.fs s.clock p with
      | none => some (.error (.missingFile p, { s with clock := s.clock + 1 }))
      | some _ => sched_step env o fuel (.fin t) { s with clock := s.clock + 1 }
    | .tgt i =>
      match up_to_date env (o.fs s.clock) i s.modified_times with
      | none => some (.error (.keyError t, { s with clock := s.clock + 1 }))
      | some (b, cache') =>
        let s1 := { s with clock := s.clock + 1, modified_times := cache' }
        if b then sched_step env o fuel (.fin t) s1
        else some (.ok (exec_command t s1))
    | .phony _ =>
      if cmdTruthy env t then some (.ok (exec_command t s))
      else sched_step env o fuel (.fin t) s

/-- The source's `on_finished(t)`. -/
def on_finished (env : Env) (o : Oracle) (fuel : Nat) (t : Dep)
    (s : TargetExecutor) : Option (Except (PyErr × TargetExecutor) TargetExecutor) :=
  sched_step env o fuel (.fin t) s

/-- The source's `run_target(t)`. -/
def run_target (env : Env) (o : Oracle) (fuel : Nat) (t : Dep)
    (s : TargetExecutor) : Option (Except (PyErr × TargetExecutor) TargetExecutor) :=
  sched_step env o fuel (.runT t) s

/-- The `for leaf in leafs: self.run_target(leaf)` prologue of `execute`. -/
def run_leafs (env : Env) (o : Oracle) (fuel : Nat) :
    List Dep → TargetExecutor → Option (Except (PyErr × TargetExecutor) TargetExecutor)
  | [], s => some (.ok s)
  | l :: ls, s =>
    match sched_step env o fuel (.runT l) s with
    | none => none
    | some (.error e) => some (.error e)
    | some (.ok s1) => run_leafs env o fuel ls s1

/-- Observation of one completed future (`f.result()`): the worker ran
`execute_target_command`, which expands the command (an unset variable
surfaces here) and runs it (a nonzero exit raises `Target ... failed`);
a success flows into `on_finished`. -/
def process_completion (env : Env) (o : Oracle) (fuel : Nat) (t : Dep)
    (s : TargetExecutor) : Option (Except (PyErr × TargetExecutor) TargetExecutor) :=
  match expand_cmd env t with
  | .error e => some (.error (e, s))
  | .ok _ =>
    if o.ok s.clock then sched_step env o fuel (.fin t) { s with clock := s.clock + 1 }
    else some (.error (.cmdFailed t, { s with clock := s.clock + 1 }))

/-- The `while self.futures:` completion loop of `execute`: wait for a
completion (chosen by the oracle), remove it from the outstanding set and
process it; an exception aborts the loop at once, leaving the remaining
futures unprocessed. -/
def exec_loop (env : Env) (o : Oracle) :
    Nat → TargetExecutor → Option (Except (PyErr × TargetExecutor) TargetExecutor)
  | 0, s => if s.futures = [] then some (.ok s) else none
  | fuel + 1, s =>
    match s.futures with
    | [] => some (.ok s)
    | _ :: _ =>
      let idx := o.pick s.clock % s.futures.length
      let t := s.futures.getD idx (.path "")
      let s1 := { s with futures := s.futures.eraseIdx idx, clock := s.clock + 1 }
      match process_completion env o fuel t s1 with
      | none => none
      | some (.error e) => some (.error e)
      | some (.ok s2) => exec_loop env o fuel s2

/-- The source's `TargetExecutor.execute(targets)`
(`src/pymk/internal.py:264-272`). -/
def execute (env : Env) (o : Oracle) (fuel : Nat) (targets : List Dep) :
    Option (Except (PyErr × TargetExecutor) TargetExecutor) :=
  match build_execution_dag env fuel targets with
  | none => none
  | some (dag, leafs) =>
    let s0 : TargetExecutor :=
      { futures := [], dependants := dag, deps_left := [], modified_times := [],
        clock := 0, events := [] }
    match run_leafs env o fuel leafs s0 with
    | none => none
    | some (.error e) => some (.error e)
    | some (.ok s1) => exec_loop env o fuel s1

/-- The source's `run(jobs, targets)` (`src/pymk/internal.py:293-310`):
0 on success, 1 on a caught `PymkException`; an uncaught exception (the
`KeyError`) escapes. -/
def run (env : Env) (o : Oracle) (fuel : Nat) (targets : List Dep) :
    Option (Except PyErr Int) :=
  match execute env o fuel targets with
  | none => none
  | some (.ok _) => some (.ok 0)
  | some (.error (e, _)) =>
    if isPymkExc e then some (.ok 1) else some (.error e)

/-- State carried by a scheduler result (the executor object survives the
exception). -/
def stateOf : Except (PyErr × TargetExecutor) TargetExecutor → TargetExecutor
  | .ok s => s
  | .error (_, s) => s

/-! ## Claim C10: a root whose groups are all empty sequences -/

theorem groupDeps_all_empty {gs : List (String × List Dep)}
    (h : ∀ g ∈ gs, g.2 = []) : groupDeps gs = [] := by
  induction gs with
  | nil => rfl
  | cons g gs ih =>
    show g.2 ++ groupDeps gs = []
    rw [h g (by simp), ih (fun g' hg' => h g' (by simp [hg']))]
    rfl

/-- C10.  A requested root all of whose dependency groups are empty
sequences is classified as a non-leaf by `build_execution_dag` (empty leaf
list, empty reverse index), the scheduler loop exits immediately because no
work is outstanding, the run completes with status 0, and the root's
command is never executed (the event log of the final state is empty). -/
theorem c10_empty_groups_root (env : Env) (o : Oracle) (fuel : Nat) (i : Nat)
    (hne : (env.phonyData i).depends ≠ [])
    (hempty : ∀ g ∈ (env.phonyData i).depends, g.2 = []) :
    is_leaf env (.phony i) = false ∧
    build_execution_dag env (fuel + 1) [.phony i] = some ([], []) ∧
    execute env o (fuel + 1) [.phony i] =
      some (.ok { futures := [], dependants := [], deps_left := [],
                  modified_times := [], clock := 0, events := [] }) ∧
    run env o (fuel + 1) [.phony i] = some (.ok 0) := by
  have hleaf : is_leaf env (.phony i) = false := by
    simp [is_leaf, hne]
  have hdeps : allDeps env (.phony i) = [] := by
    show groupDeps (dependsOf env (.phony i)) = []
    exact groupDeps_all_empty hempty
  have hdag : build_execution_dag env (fuel + 1) [.phony i] = some ([], []) := by
    unfold build_execution_dag
    have : build_dag_loop env (fuel + 1) [Dep.phony i].reverse [] [] []
        = some ([], [], []) := by
      show build_dag_loop env (fuel + 1) [Dep.phony i] [] [] [] = some ([], [], [])
      simp only [build_dag_loop, hleaf, if_false, hdeps]
      show build_dag_loop env fuel [] [] [] [] = some ([], [], [])
      exact build_dag_loop_nil env fuel [] [] []
    rw [this]
  have hexec : execute env o (fuel + 1) [.phony i] =
      some (.ok { futures := [], dependants := [], deps_left := [],
                  modified_times := [], clock := 0, events := [] }) := by
    unfold execute
    rw [hdag]
    show exec_loop env o (fuel + 1)
      { futures := [], dependants := [], deps_left := [],
        modified_times := [], clock := 0, events := [] } = _
    rfl
  refine ⟨hleaf, hdag, hexec, ?_⟩
  unfold run
  rw [hexec]

/-- Witness for C10: the concrete root `PhonyTarget('r', cmd='x',
depends={'G': []})`. -/
theorem c10_empty_groups_root_witness :
    ((({ tgtData := fun _ => { cmd := "c", output := "o", depends := [] },
         phonyData := fun _ => { name := "r", cmd := some "x", depends := [("G", [])] },
         vars := [] } : Env)).phonyData 0).depends ≠ [] ∧
    run { tgtData := fun _ => { cmd := "c", output := "o", depends := [] },
          phonyData := fun _ => { name := "r", cmd := some "x", depends := [("G", [])] },
          vars := [] }
        { fs := fun _ _ => some 1, ok := fun _ => true, pick := fun _ => 0 }
        5 [.phony 0] = some (.ok 0) := by
  refine ⟨by decide, ?_⟩
  exact (c10_empty_groups_root
    { tgtData := fun _ => { cmd := "c", output := "o", depends := [] },
      phonyData := fun _ => { name := "r", cmd := some "x", depends := [("G", [])] },
      vars := [] }
    { fs := fun _ _ => some 1, ok := fun _ => true, pick := fun _ => 0 }
    4 0 (by decide) (by decide)).2.2.2

/-! ## Counterexamples to C3 and C5 as stated -/

/-- Counterexample to C3 as stated: the acyclic graph
`lint = PhonyTarget('lint', cmd=...)`, `all = PhonyTarget('all',
depends=[lint])` with requested roots `[lint, all]`.  The graph builder
never marks roots as seen, so `lint` — a root that is also a dependency of
`all` — is enqueued a second time, appears twice in the leaf list, and its
command is dispatched TWICE in one run. -/
theorem c3_counterexample :
    (execute
      { tgtData := fun _ => { cmd := "c", output := "o", depends := [] },
        phonyData := fun i =>
          if i = 0 then { name := "lint", cmd := some "l", depends := [] }
          else { name := "all", cmd := none, depends := [("G", [.phony 0])] },
        vars := [] }
      { fs := fun _ _ => some 1, ok := fun _ => true, pick := fun _ => 0 }
      30 [.phony 0, .phony 1]).map
        (fun r => (stateOf r).events.count (.exec (.phony 0))) = some 2 := by
  rfl

/-- Counterexample to C5 as stated: two independent leaf commands `A` and
`B` are both dispatched; the oracle completes `B` first with a failure.
The loop aborts at once: `A` is still outstanding (`futures = [A]`) and its
result is never processed — the final log holds no `finish A` event, so no
bookkeeping was performed for it, contradicting "their results are still
processed for bookkeeping". -/
theorem c5_counterexample :
    execute
      { tgtData := fun _ => { cmd := "c", output := "o", depends := [] },
        phonyData := fun i =>
          if i = 0 then { name := "A", cmd := some "a", depends := [] }
          else { name := "B", cmd := some "b", depends := [] },
        vars := [] }
      { fs := fun _ _ => some 1, ok := fun _ => false, pick := fun _ => 0 }
      30 [.phony 0, .phony 1] =
      some (.error (.cmdFailed (.phony 1),
        ({ futures := [.phony 0], dependants := [], deps_left := [],
           modified_times := [], clock := 2,
           events := [.exec (.phony 1), .exec (.phony 0)] } : TargetExecutor))) ∧
    Event.exec (.phony 0) ∈ [Event.exec (.phony 1), Event.exec (.phony 0)] ∧
    Event.finish (.phony 0) ∉ [Event.exec (.phony 1), Event.exec (.phony 0)] := by
  refine ⟨rfl, by decide, by decide⟩

/-! ## Event-log coherence: replay, chunk structure, counters -/

/-- Replay the counter events against a map: an `init` requires the key to
be absent (counters are initialised at most once, on first reference), a
`decr` requires the current value to be one more than the logged new value.
A successful replay certifies that the log is exactly the sequence of
counter operations the scheduler performed. -/
def replay (env : Env) : List Event → List (Dep × Int) → Option (List (Dep × Int))
  | [], m => some m
  | e :: evs, m =>
    match e with
    | .init d v =>
      match lookupA m d with
      | some _ => none
      | none => replay env evs (m ++ [(d, v)])
    | .decr d v =>
      match lookupA m d with
      | none => none
      | some w => if w = v + 1 then replay env evs (setA m d v) else none
    | _ => replay env evs m

/-- Local shape of the log: every `decr d 0` is immediately followed by
`runReady d` (the dependant is made Ready exactly when its counter reaches
zero), and `runReady` appears nowhere else. -/
def chunks_ok : List Event → Bool
  | [] => true
  | .decr d v :: rest =>
    if v = 0 then
      match rest with
      | .runReady d' :: rest' => if d = d' then chunks_ok rest' else false
      | _ => false
    else chunks_ok rest
  | .runReady _ :: _ => false
  | _ :: rest => chunks_ok rest

theorem lookupA_append {α β : Type} [DecidableEq α] :
    ∀ (a b : List (α × β)) (k : α),
      lookupA (a ++ b) k =
        match lookupA a k with
        | some v => some v
        | none => lookupA b k := by
  intro a
  induction a with
  | nil => intro b k; rfl
  | cons kv rest ih =>
    intro b k
    obtain ⟨k', v'⟩ := kv
    by_cases hk : k' = k
    · simp [lookupA, hk]
    · simp [lookupA, hk, ih]

theorem replay_append (env : Env) :
    ∀ (a b : List Event) (m : List (Dep × Int)),
      replay env (a ++ b) m =
        match replay env a m with
        | none => none
        | some m' => replay env b m' := by
  intro a
  induction a with
  | nil => intro b m; rfl
  | cons e evs ih =>
    intro b m
    match e with
    | .init d v =>
      simp only [List.cons_append, replay]
      cases hm : lookupA m d with
      | some w => rfl
      | none => dsimp only; exact ih b (m ++ [(d, v)])
    | .decr d v =>
      simp only [List.cons_append, replay]
      cases hm : lookupA m d with
      | none => rfl
      | some w =>
        dsimp only
        by_cases hw : w = v + 1
        · rw [if_pos hw, if_pos hw]
          exact ih b (setA m d v)
        · rw [if_neg hw, if_neg hw]
    | .exec t => exact ih b m
    | .finish t => exact ih b m
    | .runReady t => exact ih b m

theorem chunks_ok_append :
    ∀ a b, chunks_ok a = true → chunks_ok b = true → chunks_ok (a ++ b) = true := by
  intro a
  induction a using chunks_ok.induct with
  | case1 => intro b _ hb; exact hb
  | case2 d' rest' ih =>
    intro b ha hb
    simp only [chunks_ok, if_true] at ha
    simp only [List.cons_append, chunks_ok, if_true]
    exact ih b ha hb
  | case3 d d' rest' hd =>
    intro b ha hb
    exfalso
    simp only [chunks_ok, if_true] at ha
    rw [if_neg hd] at ha
    simp at ha
  | case4 d rest hnr =>
    intro b ha hb
    exfalso
    match rest, hnr with
    | [], _ => simp [chunks_ok] at ha
    | .exec t :: r, _ => simp [chunks_ok] at ha
    | .finish t :: r, _ => simp [chunks_ok] at ha
    | .init t v :: r, _ => simp [chunks_ok] at ha
    | .decr t v :: r, _ => simp [chunks_ok] at ha
    | .runReady t :: r, hnr => exact hnr t r rfl
  | case5 d v rest hv ih =>
    intro b ha hb
    rw [chunks_ok.eq_def] at ha
    dsimp only at ha
    rw [if_neg hv] at ha
    rw [List.cons_append, chunks_ok.eq_def]
    dsimp only
    rw [if_neg hv]
    exact ih b ha hb
  | case6 t tail =>
    intro b ha hb
    exact absurd ha (by simp [chunks_ok])
  | case7 head rest h1 h2 ih =>
    intro b ha hb
    match head, h1, h2 with
    | .exec t, _, _ => exact ih b ha hb
    | .finish t, _, _ => exact ih b ha hb
    | .init t v, _, _ => exact ih b ha hb
    | .decr t v, h1, _ => exact absurd rfl (fun h => h1 t v h)
    | .runReady t, _, h2 => exact absurd rfl (fun h => h2 t h)

theorem chunks_ok_decr_ne (d : Dep) (v : Int) (hv : v ≠ 0) :
    chunks_ok [Event.decr d v] = true := by
  rw [chunks_ok.eq_def]
  dsimp only
  rw [if_neg hv]
  rfl

theorem chunks_ok_decr_ready (d : Dep) :
    chunks_ok [Event.decr d 0, Event.runReady d] = true := by
  rw [chunks_ok.eq_def]
  dsimp only
  rw [if_pos rfl, if_pos rfl]
  rfl

theorem replay_init_block (env : Env) (m : List (Dep × Int)) (d : Dep) (v : Int)
    (habs : lookupA m d = none) :
    replay env [Event.init d v] m = some (m ++ [(d, v)]) := by
  show (match lookupA m d with
    | some _ => none
    | none => replay env [] (m ++ [(d, v)])) = _
  rw [habs]
  rfl

theorem replay_decr_block (env : Env) (m : List (Dep × Int)) (d : Dep) (v : Int)
    (hpre : lookupA m d = some (v + 1)) :
    replay env [Event.decr d v] m = some (setA m d v) := by
  show (match lookupA m d with
    | none => none
    | some w => if w = v + 1 then replay env [] (setA m d v) else none) = _
  rw [hpre]
  dsimp only
  rw [if_pos rfl]
  rfl

theorem replay_decr_ready_block (env : Env) (m : List (Dep × Int)) (d : Dep)
    (hpre : lookupA m d = some 1) :
    replay env [Event.decr d 0, Event.runReady d] m = some (setA m d 0) := by
  show (match lookupA m d with
    | none => none
    | some w => if w = 0 + 1 then replay env [Event.runReady d] (setA m d 0) else none) = _
  rw [hpre]
  dsimp only
  rw [if_pos (by omega)]
  rfl

/-- The coherence invariant every reachable scheduler state satisfies: the
event log replays to exactly the current `deps_left` map, has the
ready-exactly-at-zero chunk shape, logs only correctly valued counter
initialisations, and dominates the outstanding futures (each outstanding
future was dispatched). -/
structure SchedInv (env : Env) (s : TargetExecutor) : Prop where
  rep : replay env s.events [] = some s.deps_left
  chunks : chunks_ok s.events = true
  inits : ∀ d v, Event.init d v ∈ s.events → v = total_deps env d
  futs : ∀ x, s.futures.count x ≤ s.events.count (.exec x)

theorem schedInv_finish (env : Env) {s s' : TargetExecutor} (inv : SchedInv env s)
    (t : Dep)
    (hf : s'.futures = s.futures) (hd : s'.deps_left = s.deps_left)
    (he : s'.events = s.events ++ [Event.finish t]) : SchedInv env s' := by
  refine ⟨?_, ?_, ?_, ?_⟩
  · rw [he, hd, replay_append, inv.rep]
    rfl
  · rw [he]
    exact chunks_ok_append _ _ inv.chunks rfl
  · intro d v hdv
    rw [he] at hdv
    rcases List.mem_append.mp hdv with h | h
    · exact inv.inits d v h
    · simp at h
  · intro x
    rw [he, hf, List.count_append]
    have h1 := inv.futs x
    have h2 : List.count (Event.exec x) [Event.finish t] = 0 := by
      simp [List.count_cons]
    omega

theorem schedInv_init (env : Env) {s s' : TargetExecutor} (inv : SchedInv env s)
    (d : Dep) (habs : lookupA s.deps_left d = none)
    (hf : s'.futures = s.futures)
    (hd : s'.deps_left = s.deps_left ++ [(d, total_deps env d)])
    (he : s'.events = s.events ++ [Event.init d (total_deps env d)]) :
    SchedInv env s' := by
  refine ⟨?_, ?_, ?_, ?_⟩
  · rw [he, hd, replay_append, inv.rep]
    exact replay_init_block env s.deps_left d (total_deps env d) habs
  · rw [he]
    exact chunks_ok_append _ _ inv.chunks rfl
  · intro d' v' hdv
    rw [he] at hdv
    rcases List.mem_append.mp hdv with h | h
    · exact inv.inits d' v' h
    · simp only [List.mem_singleton, Event.init.injEq] at h
      rw [h.2, h.1]
  · intro x
    rw [he, hf, List.count_append]
    have h1 := inv.futs x
    have h2 : List.count (Event.exec x) [Event.init d (total_deps env d)] = 0 := by
      simp [List.count_cons]
    omega

theorem schedInv_decr (env : Env) {s s' : TargetExecutor} (inv : SchedInv env s)
    (d : Dep) (v : Int) (hv : v ≠ 0)
    (hpre : lookupA s.deps_left d = some (v + 1))
    (hf : s'.futures = s.futures)
    (hd : s'.deps_left = setA s.deps_left d v)
    (he : s'.events = s.events ++ [Event.decr d v]) : SchedInv env s' := by
  refine ⟨?_, ?_, ?_, ?_⟩
  · rw [he, hd, replay_append, inv.rep]
    exact replay_decr_block env s.deps_left d v hpre
  · rw [he]
    exact chunks_ok_append _ _ inv.chunks (chunks_ok_decr_ne d v hv)
  · intro d' v' hdv
    rw [he] at hdv
    rcases List.mem_append.mp hdv with h | h
    · exact inv.inits d' v' h
    · simp at h
  · intro x
    rw [he, hf, List.count_append]
    have h1 := inv.futs x
    have h2 : List.count (Event.exec x) [Event.decr d v] = 0 := by
      simp [List.count_cons]
    omega

theorem schedInv_decr_ready (env : Env) {s s' : TargetExecutor} (inv : SchedInv env s)
    (d : Dep)
    (hpre : lookupA s.deps_left d = some 1)
    (hf : s'.futures = s.futures)
    (hd : s'.deps_left = setA s.deps_left d 0)
    (he : s'.events = s.events ++ [Event.decr d 0, Event.runReady d]) :
    SchedInv env s' := by
  refine ⟨?_, ?_, ?_, ?_⟩
  · rw [he, hd, replay_append, inv.rep]
    exact replay_decr_ready_block env s.deps_left d hpre
  · rw [he]
    exact chunks_ok_append _ _ inv.chunks (chunks_ok_decr_ready d)
  · intro d' v' hdv
    rw [he] at hdv
    rcases List.mem_append.mp hdv with h | h
    · exact inv.inits d' v' h
    · simp at h
  · intro x
    rw [he, hf, List.count_append]
    have h1 := inv.futs x
    have h2 : List.count (Event.exec x) [Event.decr d 0, Event.runReady d] = 0 := by
      simp [List.count_cons]
    omega

theorem schedInv_exec (env : Env) {s s' : TargetExecutor} (inv : SchedInv env s)
    (t : Dep)
    (hf : s'.futures = s.futures ++ [t]) (hd : s'.deps_left = s.deps_left)
    (he : s'.events = s.events ++ [Event.exec t]) : SchedInv env s' := by
  refine ⟨?_, ?_, ?_, ?_⟩
  · rw [he, hd, replay_append, inv.rep]
    rfl
  · rw [he]
    exact chunks_ok_append _ _ inv.chunks rfl
  · intro d' v' hdv
    rw [he] at hdv
    rcases List.mem_append.mp hdv with h | h
    · exact inv.inits d' v' h
    · simp at h
  · intro x
    rw [he, hf, List.count_append, List.count_append]
    have h1 := inv.futs x
    have h2 : List.count x [t] = List.count (Event.exec x) [Event.exec t] := by
      by_cases hx : x = t
      · subst hx
        simp
      · have hx2 : Event.exec x ≠ Event.exec t := by
          intro hc
          exact hx (by injection hc)
        rw [List.count_singleton', List.count_singleton',
          if_neg (fun h => hx h.symm), if_neg (fun h => hx2 h.symm)]
    omega

theorem lookupA_append_self {α β : Type} [DecidableEq α]
    (m : List (α × β)) (k : α) (v : β) (habs : lookupA m k = none) :
    lookupA (m ++ [(k, v)]) k = some v := by
  rw [lookupA_append, habs]
  simp [lookupA]

theorem count_exec_nil_block (x : Dep) :
    ∀ (B : List Event), (∀ e ∈ B, ∀ y, e ≠ Event.exec y) →
      B.count (Event.exec x) = 0 := by
  intro B
  induction B with
  | nil => intro _; rfl
  | cons e rest ih =>
    intro hB
    have h1 : (e == Event.exec x) = false := by
      rw [beq_eq_false_iff_ne]
      intro hc
      exact hB e (by simp) x hc
    rw [List.count_cons, h1]
    simp only [Bool.false_eq_true, if_false, Nat.add_zero]
    exact ih (fun e' he' y => hB e' (by simp [he']) y)

theorem bound_prepend (B Δ : List Event) (k : Dep → Nat)
    (hB : ∀ x, B.count (Event.exec x) = 0)
    (h : ∀ x, Δ.count (Event.exec x) ≤ Δ.count (Event.runReady x) + k x) :
    ∀ x, (B ++ Δ).count (Event.exec x) ≤ (B ++ Δ).count (Event.runReady x) + k x := by
  intro x
  rw [List.count_append, List.count_append, hB x]
  have := h x
  omega

theorem count_ready_decr_ready (x d : Dep) :
    (if x = d then 1 else 0) ≤
      ([Event.decr d 0, Event.runReady d] : List Event).count (Event.runReady x) := by
  by_cases hx : x = d
  · subst hx
    rw [if_pos rfl]
    simp [List.count_cons]
  · rw [if_neg hx]
    omega

theorem exec_block_bound (t : Dep) :
    ∀ x, ([Event.exec t] : List Event).count (Event.exec x) ≤
      ([Event.exec t] : List Event).count (Event.runReady x) +
        (if x = t then 1 else 0) := by
  intro x
  rw [List.count_singleton', List.count_singleton']
  by_cases hx : x = t
  · subst hx
    rw [if_pos rfl, if_neg (by simp), if_pos rfl]
  · rw [if_neg (fun hc : Event.exec t = Event.exec x => hx ((Event.exec.inj hc).symm)),
      if_neg (by simp), if_neg hx]

theorem schedInv_eq (env : Env) {s s' : TargetExecutor} (inv : SchedInv env s)
    (hf : s'.futures = s.futures) (hd : s'.deps_left = s.deps_left)
    (he : s'.events = s.events) : SchedInv env s' := by
  refine ⟨?_, ?_, ?_, ?_⟩
  · rw [he, hd]; exact inv.rep
  · rw [he]; exact inv.chunks
  · intro d v hm; exact inv.inits d v (he ▸ hm)
  · intro x; rw [he, hf]; exact inv.futs x

/-- Per-call slack of the dispatch bound: a `run_target d` invocation may
dispatch `d` itself once without a matching `runReady` event (its caller
accounts for it: the leaf loop, or the `runReady` logged by `on_finished`). -/
def extraFor : Call → Dep → Nat
  | .fin _, _ => 0
  | .floop _, _ => 0
  | .runT d, x => if x = d then 1 else 0

/-- Master invariant lemma for the readiness cascade: every call preserves
`SchedInv` and the `dependants` index, only appends to the event log, and
dispatches commands only against `runReady` budget (plus the slack of the
call itself). -/
theorem sched_step_master (env : Env) (o : Oracle) :
    ∀ fuel c s r, sched_step env o fuel c s = some r → SchedInv env s →
      SchedInv env (stateOf r) ∧ (stateOf r).dependants = s.dependants ∧
      ∃ Δ, (stateOf r).events = s.events ++ Δ ∧
        ∀ x, Δ.count (Event.exec x) ≤ Δ.count (Event.runReady x) + extraFor c x := by
  intro fuel
  induction fuel with
  | zero => intro c s r h hinv; exact absurd h (by simp [sched_step])
  | succ f ih =>
    intro c s r h hinv
    match c with
    | .fin t =>
      match t with
      | .phony j =>
        simp only [sched_step] at h
        have hinv1 : SchedInv env
            { s with events := s.events ++ [Event.finish (Dep.phony j)] } :=
          schedInv_finish env hinv (Dep.phony j) rfl rfl rfl
        obtain ⟨ha, hb, Δ, hΔ, hbd⟩ := ih _ _ _ h hinv1
        refine ⟨ha, hb, [Event.finish (Dep.phony j)] ++ Δ, ?_, ?_⟩
        · rw [hΔ]
          simp
        · refine bound_prepend _ _ _ ?_ (fun x => by simpa [extraFor] using hbd x)
          intro y
          refine count_exec_nil_block y _ ?_
          intro e he yy
          simp only [List.mem_singleton] at he
          subst he
          simp
      | .path p =>
        simp only [sched_step] at h
        cases hfs : o.fs s.clock (mtPath env (Dep.path p)) with
        | none =>
          rw [hfs] at h
          simp only [Option.some.injEq] at h
          subst h
          refine ⟨schedInv_eq env hinv rfl rfl rfl, rfl, [], by simp [stateOf], by simp⟩
        | some m =>
          rw [hfs] at h
          dsimp only at h
          have hinv1 : SchedInv env
              { s with clock := s.clock + 1,
                       modified_times := setA s.modified_times (Dep.path p) m,
                       events := s.events ++ [Event.finish (Dep.path p)] } :=
            schedInv_finish env hinv (Dep.path p) rfl rfl rfl
          obtain ⟨ha, hb, Δ, hΔ, hbd⟩ := ih _ _ _ h hinv1
          refine ⟨ha, hb, [Event.finish (Dep.path p)] ++ Δ, ?_, ?_⟩
          · rw [hΔ]
            simp
          · refine bound_prepend _ _ _ ?_ (fun x => by simpa [extraFor] using hbd x)
            intro y
            refine count_exec_nil_block y _ ?_
            intro e he yy
            simp only [List.mem_singleton] at he
            subst he
            simp
      | .tgt i =>
        simp only [sched_step] at h
        cases hfs : o.fs s.clock (mtPath env (Dep.tgt i)) with
        | none =>
          rw [hfs] at h
          simp only [Option.some.injEq] at h
          subst h
          refine ⟨schedInv_eq env hinv rfl rfl rfl, rfl, [], by simp [stateOf], by simp⟩
        | some m =>
          rw [hfs] at h
          dsimp only at h
          have hinv1 : SchedInv env
              { s with clock := s.clock + 1,
                       modified_times := setA s.modified_times (Dep.tgt i) m,
                       events := s.events ++ [Event.finish (Dep.tgt i)] } :=
            schedInv_finish env hinv (Dep.tgt i) rfl rfl rfl
          obtain ⟨ha, hb, Δ, hΔ, hbd⟩ := ih _ _ _ h hinv1
          refine ⟨ha, hb, [Event.finish (Dep.tgt i)] ++ Δ, ?_, ?_⟩
          · rw [hΔ]
            simp
          · refine bound_prepend _ _ _ ?_ (fun x => by simpa [extraFor] using hbd x)
            intro y
            refine count_exec_nil_block y _ ?_
            intro e he yy
            simp only [List.mem_singleton] at he
            subst he
            simp
    | .floop [] =>
      simp only [sched_step, Option.some.injEq] at h
      subst h
      exact ⟨hinv, rfl, [], by simp [stateOf], by simp⟩
    | .floop (d :: ds) =>
      simp only [sched_step] at h
      cases hdl : lookupA s.deps_left d with
      | some w =>
        rw [hdl] at h
        dsimp only at h
        rw [hdl] at h
        simp only [Option.getD_some] at h
        by_cases hv : w - 1 = 0
        · rw [hv] at h
          simp only [eq_self_iff_true, if_true] at h
          have hpre : lookupA s.deps_left d = some 1 := by
            rw [hdl]
            congr 1
            omega
          have hinv2 : SchedInv env
              ({ s with deps_left := setA s.deps_left d 0,
                        events := s.events ++ [Event.decr d 0, Event.runReady d] } :
                TargetExecutor) :=
            schedInv_decr_ready env hinv d hpre rfl rfl rfl
          split at h
          · exact absurd h (by simp)
          · rename_i e heq
            simp only [Option.some.injEq] at h
            subst h
            obtain ⟨ha, hb, Δ, hΔ, hbd⟩ := ih _ _ _ heq hinv2
            refine ⟨ha, hb, [Event.decr d 0, Event.runReady d] ++ Δ, ?_, ?_⟩
            · rw [hΔ]
              simp
            · intro x
              rw [List.count_append, List.count_append]
              have h1 := hbd x
              have h2 := count_ready_decr_ready x d
              have h3 : ([Event.decr d 0, Event.runReady d] : List Event).count
                  (Event.exec x) = 0 := by
                refine count_exec_nil_block x _ ?_
                intro e' he' y
                rcases List.mem_cons.mp he' with h' | h'
                · subst h'; simp
                · simp only [List.mem_singleton] at h'
                  subst h'; simp
              simp only [extraFor] at h1 ⊢
              omega
          · rename_i s3 heq
            obtain ⟨ha1, hb1, Δ1, hΔ1, hbd1⟩ := ih _ _ _ heq hinv2
            simp only [stateOf] at ha1 hb1 hΔ1
            obtain ⟨ha2, hb2, Δ2, hΔ2, hbd2⟩ := ih _ _ _ h ha1
            refine ⟨ha2, ?_, [Event.decr d 0, Event.runReady d] ++ Δ1 ++ Δ2, ?_, ?_⟩
            · rw [hb2]
              exact hb1
            · rw [hΔ2, hΔ1]
              simp
            · intro x
              rw [List.count_append, List.count_append, List.count_append,
                List.count_append]
              have h1 := hbd1 x
              have h4 := hbd2 x
              have h2 := count_ready_decr_ready x d
              have h3 : ([Event.decr d 0, Event.runReady d] : List Event).count
                  (Event.exec x) = 0 := by
                refine count_exec_nil_block x _ ?_
                intro e' he' y
                rcases List.mem_cons.mp he' with h' | h'
                · subst h'; simp
                · simp only [List.mem_singleton] at h'
                  subst h'; simp
              simp only [extraFor] at h1 h4 ⊢
              omega
        · rw [if_neg hv, if_neg hv] at h
          have hpre : lookupA s.deps_left d = some ((w - 1) + 1) := by
            rw [hdl]
            congr 1
            omega
          have hinv2 : SchedInv env
              ({ s with deps_left := setA s.deps_left d (w - 1),
                        events := s.events ++ [Event.decr d (w - 1)] } :
                TargetExecutor) :=
            schedInv_decr env hinv d (w - 1) hv hpre rfl rfl rfl
          obtain ⟨ha, hb, Δ, hΔ, hbd⟩ := ih _ _ _ h hinv2
          refine ⟨ha, hb, [Event.decr d (w - 1)] ++ Δ, ?_, ?_⟩
          · rw [hΔ]
            simp
          · refine bound_prepend _ _ _ ?_ (fun x => by simpa [extraFor] using hbd x)
            intro y
            refine count_exec_nil_block y _ ?_
            intro e' he' yy
            simp only [List.mem_singleton] at he'
            subst he'
            simp
      | none =>
        rw [hdl] at h
        dsimp only at h
        rw [lookupA_append_self s.deps_left d (total_deps env d) hdl] at h
        simp only [Option.getD_some] at h
        have hinv1 : SchedInv env
            ({ s with deps_left := s.deps_left ++ [(d, total_deps env d)],
                      events := s.events ++ [Event.init d (total_deps env d)] } :
              TargetExecutor) :=
          schedInv_init env hinv d hdl rfl rfl rfl
        by_cases hv : total_deps env d - 1 = 0
        · rw [hv] at h
          simp only [eq_self_iff_true, if_true] at h
          have hT : total_deps env d = 1 := by omega
          have hpre : lookupA (s.deps_left ++ [(d, total_deps env d)]) d = some 1 := by
            rw [lookupA_append_self _ _ _ hdl, hT]
          have hinv2 : SchedInv env
              ({ s with deps_left := setA (s.deps_left ++ [(d, total_deps env d)]) d 0,
                        events := (s.events ++ [Event.init d (total_deps env d)]) ++
                          [Event.decr d 0, Event.runReady d] } : TargetExecutor) :=
            schedInv_decr_ready env hinv1 d hpre rfl rfl rfl
          split at h
          · exact absurd h (by simp)
          · rename_i e heq
            simp only [Option.some.injEq] at h
            subst h
            obtain ⟨ha, hb, Δ, hΔ, hbd⟩ := ih _ _ _ heq hinv2
            refine ⟨ha, hb,
              [Event.init d (total_deps env d), Event.decr d 0, Event.runReady d] ++ Δ,
              ?_, ?_⟩
            · rw [hΔ]
              simp
            · intro x
              rw [List.count_append, List.count_append]
              have h1 := hbd x
              have h2 := count_ready_decr_ready x d
              have h2' : ([Event.decr d 0, Event.runReady d] : List Event).count
                    (Event.runReady x) ≤
                  ([Event.init d (total_deps env d), Event.decr d 0,
                    Event.runReady d] : List Event).count (Event.runReady x) := by
                rw [show ([Event.init d (total_deps env d), Event.decr d 0,
                    Event.runReady d] : List Event) =
                  [Event.init d (total_deps env d)] ++
                    [Event.decr d 0, Event.runReady d] from rfl]
                rw [List.count_append]
                omega
              have h3 : ([Event.init d (total_deps env d), Event.decr d 0,
                  Event.runReady d] : List Event).count (Event.exec x) = 0 := by
                refine count_exec_nil_block x _ ?_
                intro e' he' y
                rcases List.mem_cons.mp he' with h' | h'
                · subst h'; simp
                · rcases List.mem_cons.mp h' with h'' | h''
                  · subst h''; simp
                  · simp only [List.mem_singleton] at h''
                    subst h''; simp
              simp only [extraFor] at h1 ⊢
              omega
          · rename_i s3 heq
            obtain ⟨ha1, hb1, Δ1, hΔ1, hbd1⟩ := ih _ _ _ heq hinv2
            simp only [stateOf] at ha1 hb1 hΔ1
            obtain ⟨ha2, hb2, Δ2, hΔ2, hbd2⟩ := ih _ _ _ h ha1
            refine ⟨ha2, ?_,
              [Event.init d (total_deps env d), Event.decr d 0, Event.runReady d] ++
                Δ1 ++ Δ2, ?_, ?_⟩
            · rw [hb2]
              exact hb1
            · rw [hΔ2, hΔ1]
              simp
            · intro x
              rw [List.count_append, List.count_append, List.count_append,
                List.count_append]
              have h1 := hbd1 x
              have h4 := hbd2 x
              have h2 := count_ready_decr_ready x d
              have h2' : ([Event.decr d 0, Event.runReady d] : List Event).count
                    (Event.runReady x) ≤
                  ([Event.init d (total_deps env d), Event.decr d 0,
                    Event.runReady d] : List Event).count (Event.runReady x) := by
                rw [show ([Event.init d (total_deps env d), Event.decr d 0,
                    Event.runReady d] : List Event) =
                  [Event.init d (total_deps env d)] ++
                    [Event.decr d 0, Event.runReady d] from rfl]
                rw [List.count_append]
                omega
              have h3 : ([Event.init d (total_deps env d), Event.decr d 0,
                  Event.runReady d] : List Event).count (Event.exec x) = 0 := by
                refine count_exec_nil_block x _ ?_
                intro e' he' y
                rcases List.mem_cons.mp he' with h' | h'
                · subst h'; simp
                · rcases List.mem_cons.mp h' with h'' | h''
                  · subst h''; simp
                  · simp only [List.mem_singleton] at h''
                    subst h''; simp
              simp only [extraFor] at h1 h4 ⊢
              omega
        · rw [if_neg hv, if_neg hv] at h
          have hpre : lookupA (s.deps_left ++ [(d, total_deps env d)]) d =
              some ((total_deps env d - 1) + 1) := by
            rw [lookupA_append_self _ _ _ hdl]
            congr 1
            omega
          have hinv2 : SchedInv env
              ({ s with deps_left := setA (s.deps_left ++ [(d, total_deps env d)]) d
                          (total_deps env d - 1),
                        events := (s.events ++ [Event.init d (total_deps env d)]) ++
                          [Event.decr d (total_deps env d - 1)] } : TargetExecutor) :=
            schedInv_decr env hinv1 d (total_deps env d - 1) hv hpre rfl rfl rfl
          obtain ⟨ha, hb, Δ, hΔ, hbd⟩ := ih _ _ _ h hinv2
          refine ⟨ha, hb,
            [Event.init d (total_deps env d), Event.decr d (total_deps env d - 1)] ++ Δ,
            ?_, ?_⟩
          · rw [hΔ]
            simp
          · refine bound_prepend _ _ _ ?_ (fun x => by simpa [extraFor] using hbd x)
            intro y
            refine count_exec_nil_block y _ ?_
            intro e' he' yy
            rcases List.mem_cons.mp he' with h' | h'
            · subst h'; simp
            · simp only [List.mem_singleton] at h'
              subst h'; simp
    | .runT t =>
      match t with
      | .path p =>
        simp only [sched_step] at h
        cases hfs : o.fs s.clock p with
        | none =>
          rw [hfs] at h
          simp only [Option.some.injEq] at h
          subst h
          refine ⟨schedInv_eq env hinv rfl rfl rfl, rfl, [], by simp [stateOf], by simp⟩
        | some m =>
          rw [hfs] at h
          dsimp only at h
          have hinv1 : SchedInv env ({ s with clock := s.clock + 1 } : TargetExecutor) :=
            schedInv_eq env hinv rfl rfl rfl
          obtain ⟨ha, hb, Δ, hΔ, hbd⟩ := ih _ _ _ h hinv1
          refine ⟨ha, hb, Δ, hΔ, ?_⟩
          intro x
          have h1 := hbd x
          simp only [extraFor] at h1 ⊢
          omega
      | .tgt i =>
        simp only [sched_step] at h
        cases hu : up_to_date env (o.fs s.clock) i s.modified_times with
        | none =>
          rw [hu] at h
          simp only [Option.some.injEq] at h
          subst h
          refine ⟨schedInv_eq env hinv rfl rfl rfl, rfl, [], by simp [stateOf], by simp⟩
        | some bc =>
          obtain ⟨b, cache2⟩ := bc
          rw [hu] at h
          dsimp only at h
          cases b with
          | true =>
            rw [if_pos rfl] at h
            have hinv1 : SchedInv env
                ({ s with clock := s.clock + 1, modified_times := cache2 } :
                  TargetExecutor) :=
              schedInv_eq env hinv rfl rfl rfl
            obtain ⟨ha, hb, Δ, hΔ, hbd⟩ := ih _ _ _ h hinv1
            refine ⟨ha, hb, Δ, hΔ, ?_⟩
            intro x
            have h1 := hbd x
            simp only [extraFor] at h1 ⊢
            omega
          | false =>
            rw [if_neg (by simp)] at h
            simp only [Option.some.injEq] at h
            subst h
            refine ⟨?_, rfl, [Event.exec (Dep.tgt i)], rfl, ?_⟩
            · exact schedInv_exec env hinv (Dep.tgt i) rfl rfl rfl
            · intro x
              simpa [extraFor] using exec_block_bound (Dep.tgt i) x
      | .phony j =>
        simp only [sched_step] at h
        cases hcmd : cmdTruthy env (Dep.phony j) with
        | true =>
          rw [hcmd] at h
          simp only [if_true, Option.some.injEq] at h
          subst h
          refine ⟨?_, rfl, [Event.exec (Dep.phony j)], rfl, ?_⟩
          · exact schedInv_exec env hinv (Dep.phony j) rfl rfl rfl
          · intro x
            simpa [extraFor] using exec_block_bound (Dep.phony j) x
        | false =>
          rw [hcmd] at h
          simp only [Bool.false_eq_true, if_false] at h
          obtain ⟨ha, hb, Δ, hΔ, hbd⟩ := ih _ _ _ h hinv
          refine ⟨ha, hb, Δ, hΔ, ?_⟩
          intro x
          have h1 := hbd x
          simp only [extraFor] at h1 ⊢
          omega

theorem run_leafs_master (env : Env) (o : Oracle) (fuel : Nat) :
    ∀ ls s r, run_leafs env o fuel ls s = some r → SchedInv env s →
      SchedInv env (stateOf r) ∧ (stateOf r).dependants = s.dependants ∧
      ∃ Δ, (stateOf r).events = s.events ++ Δ ∧
        ∀ x, Δ.count (Event.exec x) ≤ Δ.count (Event.runReady x) + ls.count x := by
  intro ls
  induction ls with
  | nil =>
    intro s r h hinv
    simp only [run_leafs, Option.some.injEq] at h
    subst h
    exact ⟨hinv, rfl, [], by simp [stateOf], by simp⟩
  | cons l ls ih =>
    intro s r h hinv
    simp only [run_leafs] at h
    cases hrt : sched_step env o fuel (.runT l) s with
    | none => rw [hrt] at h; exact absurd h (by simp)
    | some res =>
      rw [hrt] at h
      match res, h with
      | .error e, h =>
        simp only [Option.some.injEq] at h
        subst h
        obtain ⟨ha, hb, Δ, hΔ, hbd⟩ := sched_step_master env o fuel _ _ _ hrt hinv
        refine ⟨ha, hb, Δ, hΔ, ?_⟩
        intro x
        have h1 := hbd x
        simp only [extraFor] at h1
        rw [List.count_cons]
        by_cases hx : x = l
        · subst hx
          simp at h1 ⊢
          omega
        · have hbe : (l == x) = false := beq_eq_false_iff_ne.mpr (fun hc => hx hc.symm)
          rw [hbe]
          simp only [if_neg hx] at h1
          simp only [Bool.false_eq_true, if_false]
          omega
      | .ok s1, h =>
        obtain ⟨ha, hb, Δ1, hΔ1, hbd1⟩ := sched_step_master env o fuel _ _ _ hrt hinv
        simp only [stateOf] at ha hb hΔ1
        obtain ⟨ha2, hb2, Δ2, hΔ2, hbd2⟩ := ih _ _ h ha
        refine ⟨ha2, by rw [hb2, hb], Δ1 ++ Δ2, by rw [hΔ2, hΔ1, List.append_assoc], ?_⟩
        intro x
        have h1 := hbd1 x
        have h2 := hbd2 x
        simp only [extraFor] at h1
        rw [List.count_append, List.count_append, List.count_cons]
        by_cases hx : x = l
        · subst hx
          simp at h1 ⊢
          omega
        · have hbe : (l == x) = false := beq_eq_false_iff_ne.mpr (fun hc => hx hc.symm)
          rw [hbe]
          simp only [if_neg hx] at h1
          simp only [Bool.false_eq_true, if_false]
          omega

theorem exec_loop_master (env : Env) (o : Oracle) :
    ∀ fuel s r, exec_loop env o fuel s = some r → SchedInv env s →
      SchedInv env (stateOf r) ∧ (stateOf r).dependants = s.dependants ∧
      ∃ Δ, (stateOf r).events = s.events ++ Δ ∧
        ∀ x, Δ.count (Event.exec x) ≤ Δ.count (Event.runReady x) := by
  intro fuel
  induction fuel with
  | zero =>
    intro s r h hinv
    simp only [exec_loop] at h
    split at h
    · simp only [Option.some.injEq] at h
      subst h
      exact ⟨hinv, rfl, [], by simp [stateOf], by simp⟩
    · exact absurd h (by simp)
  | succ f ih =>
    intro s r h hinv
    simp only [exec_loop] at h
    cases hfut : s.futures with
    | nil =>
      rw [hfut] at h
      dsimp only at h
      simp only [Option.some.injEq] at h
      subst h
      exact ⟨hinv, rfl, [], by simp [stateOf], by simp⟩
    | cons t0 rest =>
      rw [hfut] at h
      dsimp only at h
      have hinv1 : SchedInv env
          ({ s with futures := (t0 :: rest).eraseIdx (o.pick s.clock % (t0 :: rest).length),
                    clock := s.clock + 1 } : TargetExecutor) := by
        refine ⟨hinv.rep, hinv.chunks, hinv.inits, ?_⟩
        intro x
        refine le_trans ?_ (hinv.futs x)
        show ((t0 :: rest).eraseIdx _).count x ≤ s.futures.count x
        rw [hfut]
        exact List.Sublist.count_le (List.eraseIdx_sublist _ _) x
      set t := (t0 :: rest).getD (o.pick s.clock % (t0 :: rest).length) (Dep.path "")
        with ht
      simp only [process_completion] at h
      cases hexp : expand_cmd env t with
      | error e =>
        rw [hexp] at h
        dsimp only at h
        simp only [Option.some.injEq] at h
        subst h
        exact ⟨hinv1, rfl, [], by simp [stateOf], by simp⟩
      | ok cmds =>
        rw [hexp] at h
        dsimp only at h
        cases hok : o.ok (s.clock + 1) with
        | false =>
          rw [hok] at h
          simp only [Bool.false_eq_true, if_false, Option.some.injEq] at h
          subst h
          exact ⟨schedInv_eq env hinv1 rfl rfl rfl, rfl, [], by simp [stateOf], by simp⟩
        | true =>
          rw [hok] at h
          simp only [if_true] at h
          cases hst : sched_step env o f (.fin t)
              ({ s with futures := (t0 :: rest).eraseIdx
                          (o.pick s.clock % (t0 :: rest).length),
                        clock := s.clock + 1 + 1 } : TargetExecutor) with
          | none => rw [hst] at h; exact absurd h (by simp)
          | some res =>
            rw [hst] at h
            have hinv2 : SchedInv env
                ({ s with futures := (t0 :: rest).eraseIdx
                            (o.pick s.clock % (t0 :: rest).length),
                          clock := s.clock + 1 + 1 } : TargetExecutor) :=
              schedInv_eq env hinv1 rfl rfl rfl
            obtain ⟨ha, hb, Δ1, hΔ1, hbd1⟩ :=
              sched_step_master env o f _ _ _ hst hinv2
            match res, h with
            | .error e, h =>
              simp only [Option.some.injEq] at h
              subst h
              refine ⟨ha, hb, Δ1, hΔ1, ?_⟩
              intro x
              have h1 := hbd1 x
              simp only [extraFor] at h1
              omega
            | .ok s2, h =>
              simp only [stateOf] at ha hb hΔ1
              obtain ⟨ha2, hb2, Δ2, hΔ2, hbd2⟩ := ih _ _ h ha
              refine ⟨ha2, by rw [hb2, hb], Δ1 ++ Δ2,
                by rw [hΔ2, hΔ1, List.append_assoc], ?_⟩
              intro x
              have h1 := hbd1 x
              have h2 := hbd2 x
              simp only [extraFor] at h1
              rw [List.count_append, List.count_append]
              omega

theorem execute_master (env : Env) (o : Oracle) (fuel : Nat) (ts : List Dep)
    (dag : List (Dep × List Dep)) (leafs : List Dep)
    (r : Except (PyErr × TargetExecutor) TargetExecutor)
    (hdag : build_execution_dag env fuel ts = some (dag, leafs))
    (hex : execute env o fuel ts = some r) :
    SchedInv env (stateOf r) ∧ (stateOf r).dependants = dag ∧
      ∀ x, (stateOf r).events.count (Event.exec x) ≤
        (stateOf r).events.count (Event.runReady x) + leafs.count x := by
  unfold execute at hex
  rw [hdag] at hex
  dsimp only at hex
  have hinv0 : SchedInv env
      ({ futures := [], dependants := dag, deps_left := [], modified_times := [],
         clock := 0, events := [] } : TargetExecutor) := by
    refine ⟨rfl, rfl, ?_, ?_⟩
    · intro d v hm
      exact absurd hm (List.not_mem_nil _)
    · intro x
      simp
  cases hrl : run_leafs env o fuel leafs
      ({ futures := [], dependants := dag, deps_left := [], modified_times := [],
         clock := 0, events := [] } : TargetExecutor) with
  | none => rw [hrl] at hex; exact absurd hex (by simp)
  | some res =>
    rw [hrl] at hex
    obtain ⟨ha, hb, Δ1, hΔ1, hbd1⟩ := run_leafs_master env o fuel _ _ _ hrl hinv0
    match res, hex with
    | .error e, hex =>
      simp only [Option.some.injEq] at hex
      subst hex
      simp only [stateOf] at ha hb hΔ1 ⊢
      refine ⟨ha, hb, ?_⟩
      intro x
      have h1 := hbd1 x
      rw [hΔ1]
      simp only [List.nil_append]
      omega
    | .ok s1, hex =>
      simp only [stateOf] at ha hb hΔ1
      obtain ⟨ha2, hb2, Δ2, hΔ2, hbd2⟩ := exec_loop_master env o fuel _ _ hex ha
      refine ⟨ha2, by rw [hb2, hb], ?_⟩
      intro x
      have h1 := hbd1 x
      have h2 := hbd2 x
      rw [hΔ2, hΔ1]
      simp only [List.nil_append, List.count_append]
      omega

theorem chunks_ready_eq_decr0 :
    ∀ evs, chunks_ok evs = true →
      ∀ x, evs.count (Event.runReady x) = evs.count (Event.decr x 0) := by
  intro evs
  induction evs using chunks_ok.induct with
  | case1 => intro _ x; rfl
  | case2 d' rest' ih =>
    intro h x
    simp only [chunks_ok, if_true] at h
    rw [List.count_cons, List.count_cons, List.count_cons, List.count_cons, ih h x]
    by_cases hx : x = d'
    · subst hx
      simp
    · have h1 : (Event.runReady d' == Event.runReady x) = false :=
        beq_eq_false_iff_ne.mpr (fun hc => hx ((Event.runReady.inj hc).symm))
      have h2 : (Event.decr d' 0 == Event.runReady x) = false :=
        beq_eq_false_iff_ne.mpr (by simp)
      have h3 : (Event.runReady d' == Event.decr x 0) = false :=
        beq_eq_false_iff_ne.mpr (by simp)
      have h4 : (Event.decr d' 0 == Event.decr x 0) = false := by
        rw [beq_eq_false_iff_ne]
        intro hc
        injection hc with hc1 hc2
        exact hx hc1.symm
      rw [h1, h2, h3, h4]
  | case3 d d' rest' hd =>
    intro h x
    exfalso
    simp only [chunks_ok, if_true] at h
    rw [if_neg hd] at h
    simp at h
  | case4 d rest hnr =>
    intro h x
    exfalso
    match rest, hnr with
    | [], _ => simp [chunks_ok] at h
    | .exec t :: r, _ => simp [chunks_ok] at h
    | .finish t :: r, _ => simp [chunks_ok] at h
    | .init t v :: r, _ => simp [chunks_ok] at h
    | .decr t v :: r, _ => simp [chunks_ok] at h
    | .runReady t :: r, hnr => exact hnr t r rfl
  | case5 d v rest hv ih =>
    intro h x
    rw [chunks_ok.eq_def] at h
    dsimp only at h
    rw [if_neg hv] at h
    rw [List.count_cons, List.count_cons, ih h x]
    have h1 : (Event.decr d v == Event.runReady x) = false :=
      beq_eq_false_iff_ne.mpr (by simp)
    have h2 : (Event.decr d v == Event.decr x 0) = false := by
      rw [beq_eq_false_iff_ne]
      intro hc
      injection hc with hc1 hc2
      exact hv hc2
    rw [h1, h2]
  | case6 t tail =>
    intro h x
    exact absurd h (by simp [chunks_ok])
  | case7 head rest h1 h2 ih =>
    intro h x
    have hh : chunks_ok rest = true := by
      match head, h1, h2 with
      | .exec t, _, _ => exact h
      | .finish t, _, _ => exact h
      | .init t v, _, _ => exact h
      | .decr t v, hx1, _ => exact absurd rfl (fun hc => hx1 t v hc)
      | .runReady t, _, hx2 => exact absurd rfl (fun hc => hx2 t hc)
    rw [List.count_cons, List.count_cons, ih hh x]
    have hr : (head == Event.runReady x) = false := by
      rw [beq_eq_false_iff_ne]
      intro hc
      exact h2 x hc
    have hd : (head == Event.decr x 0) = false := by
      rw [beq_eq_false_iff_ne]
      intro hc
      exact h1 x 0 hc
    rw [hr, hd]

theorem replay_decr_lt (env : Env) :
    ∀ evs m0 m', replay env evs m0 = some m' →
      ∀ x w, lookupA m0 x = some w →
        ∀ v, Event.decr x v ∈ evs → v < w := by
  intro evs
  induction evs with
  | nil =>
    intro m0 m' h x w hw v hv
    exact absurd hv (List.not_mem_nil _)
  | cons e rest ih =>
    intro m0 m' h x w hw v hv
    match e with
    | .init d vv =>
      simp only [replay] at h
      cases hd : lookupA m0 d with
      | some u => rw [hd] at h; exact absurd h (by simp)
      | none =>
        rw [hd] at h
        dsimp only at h
        rcases List.mem_cons.mp hv with he | hm
        · exact absurd he (by simp)
        · refine ih _ _ h x w ?_ v hm
          rw [lookupA_append, hw]
    | .decr d vv =>
      simp only [replay] at h
      cases hd : lookupA m0 d with
      | none => rw [hd] at h; exact absurd h (by simp)
      | some u =>
        rw [hd] at h
        dsimp only at h
        by_cases hu : u = vv + 1
        · rw [if_pos hu] at h
          rcases List.mem_cons.mp hv with he | hm
          · injection he with he1 he2
            subst he1
            subst he2
            rw [hw] at hd
            injection hd with hd1
            omega
          · by_cases hxd : x = d
            · subst hxd
              have hlk : lookupA (setA m0 x vv) x = some vv := lookupA_setA_self _ _ _
              have hrec := ih _ _ h x vv hlk v hm
              rw [hw] at hd
              injection hd with hd1
              omega
            · have hlk : lookupA (setA m0 d vv) x = lookupA m0 x :=
                lookupA_setA_ne _ _ _ _ (fun hc => hxd hc.symm)
              exact ih _ _ h x w (by rw [hlk, hw]) v hm
        · rw [if_neg hu] at h
          exact absurd h (by simp)
    | .exec t =>
      rcases List.mem_cons.mp hv with he | hm
      · exact absurd he (by simp)
      · exact ih _ _ h x w hw v hm
    | .finish t =>
      rcases List.mem_cons.mp hv with he | hm
      · exact absurd he (by simp)
      · exact ih _ _ h x w hw v hm
    | .runReady t =>
      rcases List.mem_cons.mp hv with he | hm
      · exact absurd he (by simp)
      · exact ih _ _ h x w hw v hm

theorem replay_decr0_once (env : Env) :
    ∀ evs m0 m', replay env evs m0 = some m' →
      ∀ x, evs.count (Event.decr x 0) ≤ 1 := by
  intro evs
  induction evs with
  | nil => intro m0 m' h x; simp
  | cons e rest ih =>
    intro m0 m' h x
    match e with
    | .init d vv =>
      simp only [replay] at h
      cases hd : lookupA m0 d with
      | some u => rw [hd] at h; exact absurd h (by simp)
      | none =>
        rw [hd] at h
        dsimp only at h
        rw [List.count_cons]
        have hne : (Event.init d vv == Event.decr x 0) = false :=
          beq_eq_false_iff_ne.mpr (by simp)
        rw [hne]
        simpa using ih _ _ h x
    | .decr d vv =>
      simp only [replay] at h
      cases hd : lookupA m0 d with
      | none => rw [hd] at h; exact absurd h (by simp)
      | some u =>
        rw [hd] at h
        dsimp only at h
        by_cases hu : u = vv + 1
        · rw [if_pos hu] at h
          rw [List.count_cons]
          by_cases hc : (Event.decr d vv == Event.decr x 0) = true
          · have hc' : d = x ∧ vv = 0 := by
              have := beq_iff_eq.mp hc
              injection this with h1 h2
              exact ⟨h1, h2⟩
            obtain ⟨h1, h2⟩ := hc'
            subst h1
            subst h2
            have hlk : lookupA (setA m0 d 0) d = some 0 := lookupA_setA_self _ _ _
            have hall := replay_decr_lt env rest _ _ h d 0 hlk
            have hz : rest.count (Event.decr d 0) = 0 := by
              rw [List.count_eq_zero]
              intro hmem
              have := hall 0 hmem
              omega
            rw [hz, hc]
            simp
          · have hc' : (Event.decr d vv == Event.decr x 0) = false := by
              cases hb : (Event.decr d vv == Event.decr x 0)
              · rfl
              · exact absurd hb hc
            rw [hc']
            simpa using ih _ _ h x
        · rw [if_neg hu] at h
          exact absurd h (by simp)
    | .exec t =>
      rw [List.count_cons]
      have hne : (Event.exec t == Event.decr x 0) = false :=
        beq_eq_false_iff_ne.mpr (by simp)
      rw [hne]
      simpa using ih _ _ h x
    | .finish t =>
      rw [List.count_cons]
      have hne : (Event.finish t == Event.decr x 0) = false :=
        beq_eq_false_iff_ne.mpr (by simp)
      rw [hne]
      simpa using ih _ _ h x
    | .runReady t =>
      rw [List.count_cons]
      have hne : (Event.runReady t == Event.decr x 0) = false :=
        beq_eq_false_iff_ne.mpr (by simp)
      rw [hne]
      simpa using ih _ _ h x

theorem replay_decr0_zero_of_nonpos (env : Env) :
    ∀ evs m0 m', replay env evs m0 = some m' →
      (∀ d v, Event.init d v ∈ evs → v = total_deps env d) →
      ∀ x, total_deps env x ≤ 0 →
        (∀ w, lookupA m0 x = some w → w ≤ 0) →
        evs.count (Event.decr x 0) = 0 := by
  intro evs
  induction evs with
  | nil => intro m0 m' h hin x hx hw; rfl
  | cons e rest ih =>
    intro m0 m' h hin x hx hw
    match e with
    | .init d vv =>
      simp only [replay] at h
      cases hd : lookupA m0 d with
      | some u => rw [hd] at h; exact absurd h (by simp)
      | none =>
        rw [hd] at h
        dsimp only at h
        rw [List.count_cons]
        have hne : (Event.init d vv == Event.decr x 0) = false :=
          beq_eq_false_iff_ne.mpr (by simp)
        rw [hne]
        simp only [Bool.false_eq_true, if_false, Nat.add_zero]
        refine ih _ _ h (fun d' v' hm => hin d' v' (by simp [hm])) x hx ?_
        intro w hwmem
        rw [lookupA_append] at hwmem
        cases hmx : lookupA m0 x with
        | some u => rw [hmx] at hwmem; exact hw w (by rw [hmx]; exact hwmem)
        | none =>
          rw [hmx] at hwmem
          dsimp only at hwmem
          by_cases hxd : d = x
          · simp only [lookupA, if_pos hxd, Option.some.injEq] at hwmem
            have hvv : vv = total_deps env d := hin d vv (by simp)
            rw [← hwmem, hvv, hxd]
            exact hx
          · simp only [lookupA, if_neg hxd] at hwmem
            exact absurd hwmem (by simp)
    | .decr d vv =>
      simp only [replay] at h
      cases hd : lookupA m0 d with
      | none => rw [hd] at h; exact absurd h (by simp)
      | some u =>
        rw [hd] at h
        dsimp only at h
        by_cases hu : u = vv + 1
        · rw [if_pos hu] at h
          rw [List.count_cons]
          have hne : (Event.decr d vv == Event.decr x 0) = false := by
            rw [beq_eq_false_iff_ne]
            intro hc
            injection hc with h1 h2
            subst h1
            subst h2
            have := hw u hd
            omega
          rw [hne]
          simp only [Bool.false_eq_true, if_false, Nat.add_zero]
          refine ih _ _ h (fun d' v' hm => hin d' v' (by simp [hm])) x hx ?_
          intro w hwmem
          by_cases hxd : x = d
          · subst hxd
            rw [lookupA_setA_self] at hwmem
            injection hwmem with h1
            have := hw u hd
            omega
          · rw [lookupA_setA_ne _ _ _ _ (fun hc => hxd hc.symm)] at hwmem
            exact hw w hwmem
        · rw [if_neg hu] at h
          exact absurd h (by simp)
    | .exec t =>
      rw [List.count_cons]
      have hne : (Event.exec t == Event.decr x 0) = false :=
        beq_eq_false_iff_ne.mpr (by simp)
      rw [hne]
      simp only [Bool.false_eq_true, if_false, Nat.add_zero]
      exact ih _ _ h (fun d' v' hm => hin d' v' (by simp [hm])) x hx hw
    | .finish t =>
      rw [List.count_cons]
      have hne : (Event.finish t == Event.decr x 0) = false :=
        beq_eq_false_iff_ne.mpr (by simp)
      rw [hne]
      simp only [Bool.false_eq_true, if_false, Nat.add_zero]
      exact ih _ _ h (fun d' v' hm => hin d' v' (by simp [hm])) x hx hw
    | .runReady t =>
      rw [List.count_cons]
      have hne : (Event.runReady t == Event.decr x 0) = false :=
        beq_eq_false_iff_ne.mpr (by simp)
      rw [hne]
      simp only [Bool.false_eq_true, if_false, Nat.add_zero]
      exact ih _ _ h (fun d' v' hm => hin d' v' (by simp [hm])) x hx hw

theorem total_deps_leaf (env : Env) (x : Dep) (h : is_leaf env x = true) :
    total_deps env x = 0 := by
  match x with
  | .path p => rfl
  | .tgt i =>
    simp only [is_leaf, decide_eq_true_eq] at h
    simp [total_deps, dependsOf, h]
  | .phony i =>
    simp only [is_leaf, decide_eq_true_eq] at h
    simp [total_deps, dependsOf, h]

theorem dag_add_key_self (dag : List (Dep × List Dep)) (k t : Dep) :
    (lookupA (dag_add dag k t) k).isSome := by
  unfold dag_add
  cases hk : lookupA dag k with
  | some l => rw [lookupA_setA_self]; rfl
  | none => rw [lookupA_append_self _ _ _ hk]; rfl

theorem dag_add_key_mono (dag : List (Dep × List Dep)) (k' t k : Dep)
    (h : (lookupA dag k).isSome) : (lookupA (dag_add dag k' t) k).isSome := by
  unfold dag_add
  cases hk : lookupA dag k' with
  | some l =>
    by_cases he : k' = k
    · subst he
      rw [lookupA_setA_self]
      rfl
    · rw [lookupA_setA_ne _ _ _ _ he]
      exact h
  | none =>
    rw [lookupA_append]
    cases hx : lookupA dag k with
    | some v => rfl
    | none => rw [hx] at h; exact absurd h (by simp)

theorem expand_deps_key_mono (t : Dep) :
    ∀ ds dag seen q k, (lookupA dag k).isSome →
      (lookupA (expand_deps t ds (dag, seen, q)).1 k).isSome := by
  intro ds
  induction ds with
  | nil => intro dag seen q k h; exact h
  | cons d ds ih =>
    intro dag seen q k h
    simp only [expand_deps]
    by_cases hd : d ∈ seen
    · rw [if_pos hd]
      exact ih _ _ _ k (dag_add_key_mono dag d t k h)
    · rw [if_neg hd]
      exact ih _ _ _ k (dag_add_key_mono dag d t k h)

theorem expand_deps_key_adds (t : Dep) :
    ∀ ds dag seen q d0, d0 ∈ ds →
      (lookupA (expand_deps t ds (dag, seen, q)).1 d0).isSome := by
  intro ds
  induction ds with
  | nil => intro dag seen q d0 h; exact absurd h (List.not_mem_nil _)
  | cons d ds ih =>
    intro dag seen q d0 h
    simp only [expand_deps]
    rcases List.mem_cons.mp h with he | hm
    · subst he
      by_cases hd : d0 ∈ seen
      · rw [if_pos hd]
        exact expand_deps_key_mono t ds _ _ _ d0 (dag_add_key_self dag d0 t)
      · rw [if_neg hd]
        exact expand_deps_key_mono t ds _ _ _ d0 (dag_add_key_self dag d0 t)
    · by_cases hd : d ∈ seen
      · rw [if_pos hd]
        exact ih _ _ _ d0 hm
      · rw [if_neg hd]
        exact ih _ _ _ d0 hm

theorem build_dag_loop_key_mono (env : Env) :
    ∀ fuel q seen dag leafs dag' leafs' seen',
      build_dag_loop env fuel q seen dag leafs = some (dag', leafs', seen') →
      ∀ k, (lookupA dag k).isSome → (lookupA dag' k).isSome := by
  intro fuel
  induction fuel with
  | zero =>
    intro q seen dag leafs dag' leafs' seen' h k hk
    match q with
    | [] =>
      rw [build_dag_loop_nil] at h
      simp only [Option.some.injEq, Prod.mk.injEq] at h
      rw [← h.1]
      exact hk
    | t :: q' => exact absurd h (by simp [build_dag_loop])
  | succ f ih =>
    intro q seen dag leafs dag' leafs' seen' h k hk
    match q with
    | [] =>
      rw [build_dag_loop_nil] at h
      simp only [Option.some.injEq, Prod.mk.injEq] at h
      rw [← h.1]
      exact hk
    | t :: q' =>
      simp only [build_dag_loop] at h
      by_cases hl : is_leaf env t
      · rw [if_pos hl] at h
        exact ih _ _ _ _ _ _ _ h k hk
      · rw [if_neg hl] at h
        exact ih _ _ _ _ _ _ _ h k (expand_deps_key_mono t _ _ _ _ k hk)

theorem expand_deps_nodup (t : Dep) (roots : List Dep) :
    ∀ ds dag seen q leafs,
      (q ++ leafs).Nodup →
      (∀ x ∈ q ++ leafs, x ∈ roots ∨ x ∈ seen) →
      (∀ d ∈ ds, d ∉ roots) →
      ((expand_deps t ds (dag, seen, q)).2.2 ++ leafs).Nodup ∧
      (∀ x ∈ (expand_deps t ds (dag, seen, q)).2.2 ++ leafs,
        x ∈ roots ∨ x ∈ (expand_deps t ds (dag, seen, q)).2.1) := by
  intro ds
  induction ds with
  | nil =>
    intro dag seen q leafs hnd hmem _
    exact ⟨hnd, hmem⟩
  | cons d ds ih =>
    intro dag seen q leafs hnd hmem hroots
    simp only [expand_deps]
    by_cases hd : d ∈ seen
    · rw [if_pos hd]
      exact ih _ _ _ _ hnd hmem (fun d' hd' => hroots d' (by simp [hd']))
    · rw [if_neg hd]
      have hdq : d ∉ q ++ leafs := by
        intro hc
        rcases hmem d hc with h1 | h2
        · exact hroots d (by simp) h1
        · exact hd h2
      refine ih _ _ _ _ ?_ ?_ (fun d' hd' => hroots d' (by simp [hd']))
      · simp only [List.cons_append]
        exact List.Nodup.cons hdq hnd
      · intro x hx
        rw [List.cons_append] at hx
        rcases List.mem_cons.mp hx with he | hm
        · subst he
          exact Or.inr (by simp)
        · rcases hmem x hm with h1 | h2
          · exact Or.inl h1
          · exact Or.inr (by simp [h2])

theorem build_dag_loop_nodup (env : Env) (roots : List Dep) :
    ∀ fuel q seen dag leafs dag' leafs' seen',
      build_dag_loop env fuel q seen dag leafs = some (dag', leafs', seen') →
      (q ++ leafs).Nodup →
      (∀ x ∈ q ++ leafs, x ∈ roots ∨ x ∈ seen) →
      (∀ rt ∈ roots, lookupA dag' rt = none) →
      leafs'.Nodup := by
  intro fuel
  induction fuel with
  | zero =>
    intro q seen dag leafs dag' leafs' seen' h hnd hmem hroots
    match q with
    | [] =>
      rw [build_dag_loop_nil] at h
      simp only [Option.some.injEq, Prod.mk.injEq] at h
      rw [← h.2.1]
      simpa using hnd
    | t :: q' => exact absurd h (by simp [build_dag_loop])
  | succ f ih =>
    intro q seen dag leafs dag' leafs' seen' h hnd hmem hroots
    match q with
    | [] =>
      rw [build_dag_loop_nil] at h
      simp only [Option.some.injEq, Prod.mk.injEq] at h
      rw [← h.2.1]
      simpa using hnd
    | t :: q' =>
      simp only [build_dag_loop] at h
      by_cases hl : is_leaf env t
      · rw [if_pos hl] at h
        have hperm : (q' ++ (leafs ++ [t])).Perm ((t :: q') ++ leafs) := by
          have h1 : q' ++ (leafs ++ [t]) = (q' ++ leafs) ++ [t] := by simp
          rw [h1, List.cons_append]
          exact List.perm_append_singleton t (q' ++ leafs)
        refine ih _ _ _ _ _ _ _ h ?_ ?_ hroots
        · exact (List.Perm.nodup_iff hperm).mpr hnd
        · intro x hx
          exact hmem x (hperm.mem_iff.mp hx)
      · rw [if_neg hl] at h
        have hds : ∀ d ∈ allDeps env t, d ∉ roots := by
          intro d hd hmem_roots
          have hkey : (lookupA (expand_deps t (allDeps env t) (dag, seen, q')).1 d).isSome :=
            expand_deps_key_adds t _ _ _ _ d hd
          have hfinal : (lookupA dag' d).isSome :=
            build_dag_loop_key_mono env _ _ _ _ _ _ _ _ h d hkey
          rw [hroots d hmem_roots] at hfinal
          exact absurd hfinal (by simp)
        have hnd' : (q' ++ leafs).Nodup := by
          refine hnd.sublist ?_
          rw [List.cons_append]
          exact List.sublist_cons_self t (q' ++ leafs)
        have hmem' : ∀ x ∈ q' ++ leafs, x ∈ roots ∨ x ∈ seen := by
          intro x hx
          refine hmem x ?_
          rw [List.cons_append]
          exact List.mem_cons_of_mem t (by simpa using hx)
        obtain ⟨hnd2, hmem2⟩ :=
          expand_deps_nodup t roots (allDeps env t) dag seen q' leafs hnd' hmem' hds
        exact ih _ _ _ _ _ _ _ h hnd2 hmem2 hroots

theorem build_dag_loop_leaf_kinds (env : Env) :
    ∀ fuel q seen dag leafs dag' leafs' seen',
      build_dag_loop env fuel q seen dag leafs = some (dag', leafs', seen') →
      (∀ x ∈ leafs, is_leaf env x = true) →
      ∀ x ∈ leafs', is_leaf env x = true := by
  intro fuel
  induction fuel with
  | zero =>
    intro q seen dag leafs dag' leafs' seen' h hk x hx
    match q with
    | [] =>
      rw [build_dag_loop_nil] at h
      simp only [Option.some.injEq, Prod.mk.injEq] at h
      rw [← h.2.1] at hx
      exact hk x hx
    | t :: q' => exact absurd h (by simp [build_dag_loop])
  | succ f ih =>
    intro q seen dag leafs dag' leafs' seen' h hk x hx
    match q with
    | [] =>
      rw [build_dag_loop_nil] at h
      simp only [Option.some.injEq, Prod.mk.injEq] at h
      rw [← h.2.1] at hx
      exact hk x hx
    | t :: q' =>
      simp only [build_dag_loop] at h
      by_cases hl : is_leaf env t
      · rw [if_pos hl] at h
        refine ih _ _ _ _ _ _ _ h ?_ x hx
        intro y hy
        rcases List.mem_append.mp hy with hm | hm
        · exact hk y hm
        · have : y = t := by simpa using hm
          subst this
          exact hl
      · rw [if_neg hl] at h
        exact ih _ _ _ _ _ _ _ h hk x hx

/-- C3 amended.  If the requested roots are pairwise distinct objects and
no root is recorded as anyone's dependency in the reverse index (no root is
a dependency of any expanded node), then in every scheduler run — whatever
the oracle resolves, and even without assuming acyclicity — every node's
command is dispatched at most once. -/
theorem c3_at_most_once_amended (env : Env) (o : Oracle) (fuel : Nat)
    (ts : List Dep) (dag : List (Dep × List Dep)) (leafs : List Dep)
    (r : Except (PyErr × TargetExecutor) TargetExecutor)
    (hdag : build_execution_dag env fuel ts = some (dag, leafs))
    (hnodup : ts.Nodup)
    (hroots : ∀ t ∈ ts, lookupA dag t = none)
    (hex : execute env o fuel ts = some r) :
    ∀ x, (stateOf r).events.count (Event.exec x) ≤ 1 := by
  obtain ⟨hinv, hdagst, hbound⟩ := execute_master env o fuel ts dag leafs r hdag hex
  unfold build_execution_dag at hdag
  have hloop : ∃ seen0, build_dag_loop env fuel ts.reverse [] [] []
      = some (dag, leafs, seen0) := by
    match hl : build_dag_loop env fuel ts.reverse [] [] [] with
    | none => rw [hl] at hdag; exact absurd hdag (by simp)
    | some (dag0, leafs0, seen0) =>
      rw [hl] at hdag
      simp only [Option.some.injEq, Prod.mk.injEq] at hdag
      exact ⟨seen0, by rw [hdag.1, hdag.2]⟩
  obtain ⟨seen0, hloop⟩ := hloop
  have hndleafs : leafs.Nodup := by
    refine build_dag_loop_nodup env ts fuel ts.reverse [] [] [] dag leafs seen0 hloop
      ?_ ?_ hroots
    · simpa using hnodup
    · intro x hx
      exact Or.inl (List.mem_reverse.mp (by simpa using hx))
  have hkinds : ∀ x ∈ leafs, is_leaf env x = true := by
    refine build_dag_loop_leaf_kinds env fuel ts.reverse [] [] [] dag leafs seen0 hloop
      ?_
    intro y hy
    exact absurd hy (List.not_mem_nil y)
  intro x
  have h1 := hbound x
  by_cases hlx : is_leaf env x = true
  · have hzero : (stateOf r).events.count (Event.decr x 0) = 0 := by
      refine replay_decr0_zero_of_nonpos env _ [] _ hinv.rep hinv.inits x ?_ ?_
      · rw [total_deps_leaf env x hlx]
      · intro w hw
        exact absurd hw (by simp [lookupA])
    have hr0 : (stateOf r).events.count (Event.runReady x) = 0 := by
      rw [chunks_ready_eq_decr0 _ hinv.chunks x, hzero]
    have hcle : leafs.count x ≤ 1 := List.nodup_iff_count_le_one.mp hndleafs x
    omega
  · have hnot : x ∉ leafs := fun hc => hlx (hkinds x hc)
    have hc0 : leafs.count x = 0 := List.count_eq_zero.mpr hnot
    have hready_le : (stateOf r).events.count (Event.runReady x) ≤ 1 := by
      rw [chunks_ready_eq_decr0 _ hinv.chunks x]
      exact replay_decr0_once env _ [] _ hinv.rep x
    omega

/-- Witness for C3 amended: the basic diamond `abc` scenario collapsed to
one root with one dependency; the dispatched command count of the shared
dependency is at most one. -/
theorem c3_at_most_once_amended_witness :
    build_execution_dag
      { tgtData := fun _ => { cmd := "c", output := "o", depends := [] },
        phonyData := fun i =>
          if i = 0 then { name := "lint", cmd := some "l", depends := [] }
          else { name := "all", cmd := none, depends := [("G", [.phony 0])] },
        vars := [] } 30 [.phony 1] = some ([(.phony 0, [.phony 1])], [.phony 0]) ∧
    ([Dep.phony 1] : List Dep).Nodup ∧
    (∀ t ∈ ([Dep.phony 1] : List Dep),
      lookupA [((Dep.phony 0 : Dep), [Dep.phony 1])] t = none) ∧
    ∀ x, (stateOf (Except.ok
      ({ futures := [], dependants := [(.phony 0, [.phony 1])], deps_left := [(.phony 1, 0)],
         modified_times := [], clock := 2,
         events := [.exec (.phony 0), .finish (.phony 0), .init (.phony 1) 1,
           .decr (.phony 1) 0, .runReady (.phony 1), .finish (.phony 1)] }
        : TargetExecutor))).events.count (Event.exec x) ≤ 1 := by
  refine ⟨rfl, by decide, by decide, ?_⟩
  refine c3_at_most_once_amended
    { tgtData := fun _ => { cmd := "c", output := "o", depends := [] },
      phonyData := fun i =>
        if i = 0 then { name := "lint", cmd := some "l", depends := [] }
        else { name := "all", cmd := none, depends := [("G", [.phony 0])] },
      vars := [] }
    { fs := fun _ _ => some 1, ok := fun _ => true, pick := fun _ => 0 }
    30 [.phony 1] [(.phony 0, [.phony 1])] [.phony 0] _ rfl (by decide) (by decide) ?_
  rfl

/-- Number of decrement events targeting `x` in a log. -/
def decr_total (evs : List Event) (x : Dep) : Nat :=
  evs.countP (fun e => match e with | .decr d _ => d == x | _ => false)

/-- Number of decrements owed to `x` by the `finish` events of a log: each
`finish t` owes one decrement per occurrence of `x` in `dependants[t]`
(`for dependant in self.dependants[t]` visits occurrences, not a set). -/
def finish_total (dag : List (Dep × List Dep)) (evs : List Event) (x : Dep) : Nat :=
  (evs.map (fun e => match e with
    | .finish t => ((lookupA dag t).getD []).count x
    | _ => 0)).sum

theorem decr_total_append (a b : List Event) (x : Dep) :
    decr_total (a ++ b) x = decr_total a x + decr_total b x := by
  simp [decr_total, List.countP_append]

theorem finish_total_append (dag : List (Dep × List Dep)) (a b : List Event) (x : Dep) :
    finish_total dag (a ++ b) x = finish_total dag a x + finish_total dag b x := by
  simp [finish_total]

theorem decr_total_decr (d : Dep) (v : Int) (x : Dep) :
    decr_total [Event.decr d v] x = if d = x then 1 else 0 := by
  by_cases hd : d = x
  · subst hd
    simp [decr_total]
  · simp [decr_total, hd]

theorem decr_total_nonDecr (e : Event) (x : Dep)
    (h : ∀ d v, e ≠ Event.decr d v) : decr_total [e] x = 0 := by
  cases e with
  | decr d v => exact absurd rfl (h d v)
  | exec t => simp [decr_total]
  | finish t => simp [decr_total]
  | init d v => simp [decr_total]
  | runReady d => simp [decr_total]

theorem finish_total_finish (dag : List (Dep × List Dep)) (t : Dep) (x : Dep) :
    finish_total dag [Event.finish t] x = ((lookupA dag t).getD []).count x := by
  simp [finish_total]

theorem finish_total_nonFinish (dag : List (Dep × List Dep)) (e : Event) (x : Dep)
    (h : ∀ t, e ≠ Event.finish t) : finish_total dag [e] x = 0 := by
  cases e with
  | finish t => exact absurd rfl (h t)
  | exec t => simp [finish_total]
  | decr d v => simp [finish_total]
  | init d v => simp [finish_total]
  | runReady d => simp [finish_total]

/-- Per-call decrement debt: a pending `for dependant in ...` suffix owes one
decrement per occurrence. -/
def decrDebt : Call → Dep → Nat
  | .floop ds, x => ds.count x
  | _, _ => 0


theorem decr_total_finish (t : Dep) (x : Dep) :
    decr_total [Event.finish t] x = 0 := by
  simp [decr_total]

theorem decr_total_exec (t : Dep) (x : Dep) :
    decr_total [Event.exec t] x = 0 := by
  simp [decr_total]

theorem finish_total_exec (dag : List (Dep × List Dep)) (t : Dep) (x : Dep) :
    finish_total dag [Event.exec t] x = 0 := by
  simp [finish_total]

theorem decr_total_decr_ready (d : Dep) (x : Dep) :
    decr_total [Event.decr d 0, Event.runReady d] x = if d = x then 1 else 0 := by
  by_cases hd : d = x
  · subst hd; simp [decr_total]
  · simp [decr_total, hd]

theorem finish_total_decr_ready (dag : List (Dep × List Dep)) (d : Dep) (x : Dep) :
    finish_total dag [Event.decr d 0, Event.runReady d] x = 0 := by
  simp [finish_total]

theorem decr_total_init_decr (d : Dep) (v w : Int) (x : Dep) :
    decr_total [Event.init d v, Event.decr d w] x = if d = x then 1 else 0 := by
  by_cases hd : d = x
  · subst hd; simp [decr_total]
  · simp [decr_total, hd]

theorem finish_total_init_decr (dag : List (Dep × List Dep)) (d : Dep) (v w : Int)
    (x : Dep) : finish_total dag [Event.init d v, Event.decr d w] x = 0 := by
  simp [finish_total]

theorem decr_total_init_decr_ready (d : Dep) (v : Int) (x : Dep) :
    decr_total [Event.init d v, Event.decr d 0, Event.runReady d] x =
      if d = x then 1 else 0 := by
  by_cases hd : d = x
  · subst hd; simp [decr_total]
  · simp [decr_total, hd]

theorem finish_total_init_decr_ready (dag : List (Dep × List Dep)) (d : Dep) (v : Int)
    (x : Dep) :
    finish_total dag [Event.init d v, Event.decr d 0, Event.runReady d] x = 0 := by
  simp [finish_total]

/-- Master decrement-accounting lemma: every call preserves the reverse
index, and appends to the event log a segment whose decrements for each node
are exactly the decrements owed by the segment's `finish` events under the
reverse index plus the pending-loop debt of the call itself — "exactly"
weakening to "at most" when the call aborts with an exception. -/
theorem sched_step_decr (env : Env) (o : Oracle) (dag : List (Dep × List Dep)) :
    ∀ fuel c s r, sched_step env o fuel c s = some r → s.dependants = dag →
      (stateOf r).dependants = dag ∧
      ∃ Δ, (stateOf r).events = s.events ++ Δ ∧
        (∀ x, decr_total Δ x ≤ finish_total dag Δ x + decrDebt c x) ∧
        (∀ s1, r = Except.ok s1 →
          ∀ x, decr_total Δ x = finish_total dag Δ x + decrDebt c x) := by
  intro fuel
  induction fuel with
  | zero => intro c s r h hdg; exact absurd h (by simp [sched_step])
  | succ f ih =>
    intro c s r h hdg
    match c with
    | .fin t =>
      match t with
      | .phony j =>
        simp only [sched_step] at h
        rw [hdg] at h
        obtain ⟨ha, Δ, hΔ, hle, heq⟩ := ih _ _ _ h rfl
        refine ⟨ha, [Event.finish (Dep.phony j)] ++ Δ, ?_, ?_, ?_⟩
        · rw [hΔ]
          simp
        · intro x
          rw [decr_total_append, finish_total_append, decr_total_finish,
            finish_total_finish]
          have h1 := hle x
          simp only [decrDebt] at h1 ⊢
          omega
        · intro s1 hs1 x
          rw [decr_total_append, finish_total_append, decr_total_finish,
            finish_total_finish]
          have h1 := heq s1 hs1 x
          simp only [decrDebt] at h1 ⊢
          omega
      | .path p =>
        simp only [sched_step] at h
        cases hfs : o.fs s.clock (mtPath env (Dep.path p)) with
        | none =>
          rw [hfs] at h
          simp only [Option.some.injEq] at h
          subst h
          refine ⟨hdg, [], by simp [stateOf], by simp [decr_total], ?_⟩
          intro s1 hs1
          exact absurd hs1 (by simp)
        | some m =>
          rw [hfs] at h
          dsimp only at h
          rw [hdg] at h
          obtain ⟨ha, Δ, hΔ, hle, heq⟩ := ih _ _ _ h rfl
          refine ⟨ha, [Event.finish (Dep.path p)] ++ Δ, ?_, ?_, ?_⟩
          · rw [hΔ]
            simp
          · intro x
            rw [decr_total_append, finish_total_append, decr_total_finish,
              finish_total_finish]
            have h1 := hle x
            simp only [decrDebt] at h1 ⊢
            omega
          · intro s1 hs1 x
            rw [decr_total_append, finish_total_append, decr_total_finish,
              finish_total_finish]
            have h1 := heq s1 hs1 x
            simp only [decrDebt] at h1 ⊢
            omega
      | .tgt i =>
        simp only [sched_step] at h
        cases hfs : o.fs s.clock (mtPath env (Dep.tgt i)) with
        | none =>
          rw [hfs] at h
          simp only [Option.some.injEq] at h
          subst h
          refine ⟨hdg, [], by simp [stateOf], by simp [decr_total], ?_⟩
          intro s1 hs1
          exact absurd hs1 (by simp)
        | some m =>
          rw [hfs] at h
          dsimp only at h
          rw [hdg] at h
          obtain ⟨ha, Δ, hΔ, hle, heq⟩ := ih _ _ _ h rfl
          refine ⟨ha, [Event.finish (Dep.tgt i)] ++ Δ, ?_, ?_, ?_⟩
          · rw [hΔ]
            simp
          · intro x
            rw [decr_total_append, finish_total_append, decr_total_finish,
              finish_total_finish]
            have h1 := hle x
            simp only [decrDebt] at h1 ⊢
            omega
          · intro s1 hs1 x
            rw [decr_total_append, finish_total_append, decr_total_finish,
              finish_total_finish]
            have h1 := heq s1 hs1 x
            simp only [decrDebt] at h1 ⊢
            omega
    | .floop [] =>
      simp only [sched_step, Option.some.injEq] at h
      subst h
      refine ⟨hdg, [], by simp [stateOf], by simp [decr_total, decrDebt], ?_⟩
      intro s1 hs1 x
      simp [decr_total, finish_total, decrDebt]
    | .floop (d :: ds) =>
      simp only [sched_step] at h
      cases hdl : lookupA s.deps_left d with
      | some w =>
        rw [hdl] at h
        dsimp only at h
        rw [hdl] at h
        simp only [Option.getD_some] at h
        by_cases hv : w - 1 = 0
        · rw [hv] at h
          simp only [eq_self_iff_true, if_true] at h
          split at h
          · exact absurd h (by simp)
          · rename_i e heq'
            simp only [Option.some.injEq] at h
            subst h
            obtain ⟨ha, Δ, hΔ, hle, _⟩ := ih _ _ _ heq' hdg
            refine ⟨ha, [Event.decr d 0, Event.runReady d] ++ Δ, ?_, ?_, ?_⟩
            · rw [hΔ]
              simp
            · intro x
              rw [decr_total_append, finish_total_append, decr_total_decr_ready,
                finish_total_decr_ready]
              have h1 := hle x
              simp only [decrDebt] at h1 ⊢
              rw [List.count_cons]
              by_cases hd : d = x
              · simp only [hd, beq_self_eq_true, if_true, eq_self_iff_true]
                omega
              · have hbe : (d == x) = false := beq_eq_false_iff_ne.mpr hd
                rw [if_neg hd, hbe]
                simp only [Bool.false_eq_true, if_false]
                omega
            · intro s1 hs1 x
              exact absurd hs1 (by simp)
          · rename_i s3 heq'
            obtain ⟨ha1, Δ1, hΔ1, hle1, heq1⟩ := ih _ _ _ heq' hdg
            simp only [stateOf] at ha1 hΔ1
            obtain ⟨ha2, Δ2, hΔ2, hle2, heq2⟩ := ih _ _ _ h ha1
            refine ⟨ha2, [Event.decr d 0, Event.runReady d] ++ Δ1 ++ Δ2, ?_, ?_, ?_⟩
            · rw [hΔ2, hΔ1]
              simp
            · intro x
              rw [List.append_assoc, decr_total_append, finish_total_append,
                decr_total_append, finish_total_append, decr_total_decr_ready,
                finish_total_decr_ready]
              have h1 := hle1 x
              have h2 := hle2 x
              simp only [decrDebt] at h1 h2 ⊢
              rw [List.count_cons]
              by_cases hd : d = x
              · simp only [hd, beq_self_eq_true, if_true, eq_self_iff_true]
                omega
              · have hbe : (d == x) = false := beq_eq_false_iff_ne.mpr hd
                rw [if_neg hd, hbe]
                simp only [Bool.false_eq_true, if_false]
                omega
            · intro s1 hs1 x
              have h1 := heq1 s3 rfl x
              have h2 := heq2 s1 hs1 x
              rw [List.append_assoc, decr_total_append, finish_total_append,
                decr_total_append, finish_total_append, decr_total_decr_ready,
                finish_total_decr_ready]
              simp only [decrDebt] at h1 h2 ⊢
              rw [List.count_cons]
              by_cases hd : d = x
              · simp only [hd, beq_self_eq_true, if_true, eq_self_iff_true]
                omega
              · have hbe : (d == x) = false := beq_eq_false_iff_ne.mpr hd
                rw [if_neg hd, hbe]
                simp only [Bool.false_eq_true, if_false]
                omega
        · rw [if_neg hv, if_neg hv] at h
          obtain ⟨ha, Δ, hΔ, hle, heq⟩ := ih _ _ _ h hdg
          refine ⟨ha, [Event.decr d (w - 1)] ++ Δ, ?_, ?_, ?_⟩
          · rw [hΔ]
            simp
          · intro x
            rw [decr_total_append, finish_total_append, decr_total_decr]
            have hf : finish_total dag [Event.decr d (w - 1)] x = 0 :=
              finish_total_nonFinish dag _ x (by intro t; simp)
            rw [hf]
            have h1 := hle x
            simp only [decrDebt] at h1 ⊢
            rw [List.count_cons]
            by_cases hd : d = x
            · simp only [hd, beq_self_eq_true, if_true, eq_self_iff_true]
              omega
            · have hbe : (d == x) = false := beq_eq_false_iff_ne.mpr hd
              rw [if_neg hd, hbe]
              simp only [Bool.false_eq_true, if_false]
              omega
          · intro s1 hs1 x
            rw [decr_total_append, finish_total_append, decr_total_decr]
            have hf : finish_total dag [Event.decr d (w - 1)] x = 0 :=
              finish_total_nonFinish dag _ x (by intro t; simp)
            rw [hf]
            have h1 := heq s1 hs1 x
            simp only [decrDebt] at h1 ⊢
            rw [List.count_cons]
            by_cases hd : d = x
            · simp only [hd, beq_self_eq_true, if_true, eq_self_iff_true]
              omega
            · have hbe : (d == x) = false := beq_eq_false_iff_ne.mpr hd
              rw [if_neg hd, hbe]
              simp only [Bool.false_eq_true, if_false]
              omega
      | none =>
        rw [hdl] at h
        dsimp only at h
        rw [lookupA_append_self s.deps_left d (total_deps env d) hdl] at h
        simp only [Option.getD_some] at h
        by_cases hv : total_deps env d - 1 = 0
        · rw [hv] at h
          simp only [eq_self_iff_true, if_true] at h
          split at h
          · exact absurd h (by simp)
          · rename_i e heq'
            simp only [Option.some.injEq] at h
            subst h
            obtain ⟨ha, Δ, hΔ, hle, _⟩ := ih _ _ _ heq' hdg
            refine ⟨ha,
              [Event.init d (total_deps env d), Event.decr d 0, Event.runReady d] ++ Δ,
              ?_, ?_, ?_⟩
            · rw [hΔ]
              simp
            · intro x
              rw [decr_total_append, finish_total_append, decr_total_init_decr_ready,
                finish_total_init_decr_ready]
              have h1 := hle x
              simp only [decrDebt] at h1 ⊢
              rw [List.count_cons]
              by_cases hd : d = x
              · simp only [hd, beq_self_eq_true, if_true, eq_self_iff_true]
                omega
              · have hbe : (d == x) = false := beq_eq_false_iff_ne.mpr hd
                rw [if_neg hd, hbe]
                simp only [Bool.false_eq_true, if_false]
                omega
            · intro s1 hs1 x
              exact absurd hs1 (by simp)
          · rename_i s3 heq'
            obtain ⟨ha1, Δ1, hΔ1, hle1, heq1⟩ := ih _ _ _ heq' hdg
            simp only [stateOf] at ha1 hΔ1
            obtain ⟨ha2, Δ2, hΔ2, hle2, heq2⟩ := ih _ _ _ h ha1
            refine ⟨ha2,
              [Event.init d (total_deps env d), Event.decr d 0, Event.runReady d] ++
                Δ1 ++ Δ2, ?_, ?_, ?_⟩
            · rw [hΔ2, hΔ1]
              simp
            · intro x
              rw [List.append_assoc, decr_total_append, finish_total_append,
                decr_total_append, finish_total_append, decr_total_init_decr_ready,
                finish_total_init_decr_ready]
              have h1 := hle1 x
              have h2 := hle2 x
              simp only [decrDebt] at h1 h2 ⊢
              rw [List.count_cons]
              by_cases hd : d = x
              · simp only [hd, beq_self_eq_true, if_true, eq_self_iff_true]
                omega
              · have hbe : (d == x) = false := beq_eq_false_iff_ne.mpr hd
                rw [if_neg hd, hbe]
                simp only [Bool.false_eq_true, if_false]
                omega
            · intro s1 hs1 x
              have h1 := heq1 s3 rfl x
              have h2 := heq2 s1 hs1 x
              rw [List.append_assoc, decr_total_append, finish_total_append,
                decr_total_append, finish_total_append, decr_total_init_decr_ready,
                finish_total_init_decr_ready]
              simp only [decrDebt] at h1 h2 ⊢
              rw [List.count_cons]
              by_cases hd : d = x
              · simp only [hd, beq_self_eq_true, if_true, eq_self_iff_true]
                omega
              · have hbe : (d == x) = false := beq_eq_false_iff_ne.mpr hd
                rw [if_neg hd, hbe]
                simp only [Bool.false_eq_true, if_false]
                omega
        · rw [if_neg hv, if_neg hv] at h
          obtain ⟨ha, Δ, hΔ, hle, heq⟩ := ih _ _ _ h hdg
          refine ⟨ha,
            [Event.init d (total_deps env d), Event.decr d (total_deps env d - 1)] ++ Δ,
            ?_, ?_, ?_⟩
          · rw [hΔ]
            simp
          · intro x
            rw [decr_total_append, finish_total_append, decr_total_init_decr,
              finish_total_init_decr]
            have h1 := hle x
            simp only [decrDebt] at h1 ⊢
            rw [List.count_cons]
            by_cases hd : d = x
            · simp only [hd, beq_self_eq_true, if_true, eq_self_iff_true]
              omega
            · have hbe : (d == x) = false := beq_eq_false_iff_ne.mpr hd
              rw [if_neg hd, hbe]
              simp only [Bool.false_eq_true, if_false]
              omega
          · intro s1 hs1 x
            rw [decr_total_append, finish_total_append, decr_total_init_decr,
              finish_total_init_decr]
            have h1 := heq s1 hs1 x
            simp only [decrDebt] at h1 ⊢
            rw [List.count_cons]
            by_cases hd : d = x
            · simp only [hd, beq_self_eq_true, if_true, eq_self_iff_true]
              omega
            · have hbe : (d == x) = false := beq_eq_false_iff_ne.mpr hd
              rw [if_neg hd, hbe]
              simp only [Bool.false_eq_true, if_false]
              omega
    | .runT t =>
      match t with
      | .path p =>
        simp only [sched_step] at h
        cases hfs : o.fs s.clock p with
        | none =>
          rw [hfs] at h
          simp only [Option.some.injEq] at h
          subst h
          refine ⟨hdg, [], by simp [stateOf], by simp [decr_total], ?_⟩
          intro s1 hs1
          exact absurd hs1 (by simp)
        | some m =>
          rw [hfs] at h
          dsimp only at h
          obtain ⟨ha, Δ, hΔ, hle, heq⟩ := ih _ _ _ h hdg
          exact ⟨ha, Δ, hΔ, hle, heq⟩
      | .tgt i =>
        simp only [sched_step] at h
        cases hu : up_to_date env (o.fs s.clock) i s.modified_times with
        | none =>
          rw [hu] at h
          simp only [Option.some.injEq] at h
          subst h
          refine ⟨hdg, [], by simp [stateOf], by simp [decr_total], ?_⟩
          intro s1 hs1
          exact absurd hs1 (by simp)
        | some bc =>
          obtain ⟨b, cache2⟩ := bc
          rw [hu] at h
          dsimp only at h
          cases b with
          | true =>
            rw [if_pos rfl] at h
            obtain ⟨ha, Δ, hΔ, hle, heq⟩ := ih _ _ _ h hdg
            exact ⟨ha, Δ, hΔ, hle, heq⟩
          | false =>
            rw [if_neg (by simp)] at h
            simp only [Option.some.injEq] at h
            subst h
            refine ⟨hdg, [Event.exec (Dep.tgt i)], rfl, ?_, ?_⟩
            · intro x
              rw [decr_total_exec, finish_total_exec]
              omega
            · intro s1 hs1 x
              rw [decr_total_exec, finish_total_exec]
              simp [decrDebt]
      | .phony j =>
        simp only [sched_step] at h
        cases hcmd : cmdTruthy env (Dep.phony j) with
        | true =>
          rw [hcmd] at h
          simp only [if_true, Option.some.injEq] at h
          subst h
          refine ⟨hdg, [Event.exec (Dep.phony j)], rfl, ?_, ?_⟩
          · intro x
            rw [decr_total_exec, finish_total_exec]
            omega
          · intro s1 hs1 x
            rw [decr_total_exec, finish_total_exec]
            simp [decrDebt]
        | false =>
          rw [hcmd] at h
          simp only [Bool.false_eq_true, if_false] at h
          obtain ⟨ha, Δ, hΔ, hle, heq⟩ := ih _ _ _ h hdg
          exact ⟨ha, Δ, hΔ, hle, heq⟩

theorem run_leafs_decr (env : Env) (o : Oracle) (fuel : Nat)
    (dag : List (Dep × List Dep)) :
    ∀ ls s r, run_leafs env o fuel ls s = some r → s.dependants = dag →
      (stateOf r).dependants = dag ∧
      ∃ Δ, (stateOf r).events = s.events ++ Δ ∧
        (∀ x, decr_total Δ x ≤ finish_total dag Δ x) ∧
        (∀ s1, r = Except.ok s1 → ∀ x, decr_total Δ x = finish_total dag Δ x) := by
  intro ls
  induction ls with
  | nil =>
    intro s r h hdg
    simp only [run_leafs, Option.some.injEq] at h
    subst h
    refine ⟨hdg, [], by simp [stateOf], by simp [decr_total], ?_⟩
    intro s1 hs1 x
    simp [decr_total, finish_total]
  | cons l ls ih =>
    intro s r h hdg
    simp only [run_leafs] at h
    cases hrt : sched_step env o fuel (.runT l) s with
    | none => rw [hrt] at h; exact absurd h (by simp)
    | some res =>
      rw [hrt] at h
      match res, h with
      | .error e, h =>
        simp only [Option.some.injEq] at h
        subst h
        obtain ⟨ha, Δ, hΔ, hle, _⟩ := sched_step_decr env o dag fuel _ _ _ hrt hdg
        refine ⟨ha, Δ, hΔ, ?_, ?_⟩
        · intro x
          have h1 := hle x
          simp only [decrDebt] at h1
          omega
        · intro s1 hs1
          exact absurd hs1 (by simp)
      | .ok s1, h =>
        obtain ⟨ha1, Δ1, hΔ1, hle1, heq1⟩ := sched_step_decr env o dag fuel _ _ _ hrt hdg
        simp only [stateOf] at ha1 hΔ1
        obtain ⟨ha2, Δ2, hΔ2, hle2, heq2⟩ := ih _ _ h ha1
        refine ⟨ha2, Δ1 ++ Δ2, by rw [hΔ2, hΔ1, List.append_assoc], ?_, ?_⟩
        · intro x
          rw [decr_total_append, finish_total_append]
          have h1 := hle1 x
          have h2 := hle2 x
          simp only [decrDebt] at h1
          omega
        · intro s2 hs2 x
          rw [decr_total_append, finish_total_append]
          have h1 := heq1 s1 rfl x
          have h2 := heq2 s2 hs2 x
          simp only [decrDebt] at h1
          omega

theorem process_completion_decr (env : Env) (o : Oracle) (fuel : Nat)
    (dag : List (Dep × List Dep)) (t : Dep) (s : TargetExecutor) (r)
    (h : process_completion env o fuel t s = some r) (hdg : s.dependants = dag) :
    (stateOf r).dependants = dag ∧
    ∃ Δ, (stateOf r).events = s.events ++ Δ ∧
      (∀ x, decr_total Δ x ≤ finish_total dag Δ x) ∧
      (∀ s1, r = Except.ok s1 → ∀ x, decr_total Δ x = finish_total dag Δ x) := by
  unfold process_completion at h
  cases hxc : expand_cmd env t with
  | error e =>
    rw [hxc] at h
    simp only [Option.some.injEq] at h
    subst h
    refine ⟨hdg, [], by simp [stateOf], by simp [decr_total], ?_⟩
    intro s1 hs1
    exact absurd hs1 (by simp)
  | ok c =>
    rw [hxc] at h
    dsimp only at h
    cases hok : o.ok s.clock with
    | true =>
      rw [hok] at h
      simp only [if_true] at h
      obtain ⟨ha, Δ, hΔ, hle, heq⟩ := sched_step_decr env o dag fuel _ _ _ h hdg
      refine ⟨ha, Δ, hΔ, ?_, ?_⟩
      · intro x
        have h1 := hle x
        simp only [decrDebt] at h1
        omega
      · intro s1 hs1 x
        have h1 := heq s1 hs1 x
        simp only [decrDebt] at h1
        omega
    | false =>
      rw [hok] at h
      simp only [Bool.false_eq_true, if_false, Option.some.injEq] at h
      subst h
      refine ⟨hdg, [], by simp [stateOf], by simp [decr_total], ?_⟩
      intro s1 hs1
      exact absurd hs1 (by simp)

theorem exec_loop_decr (env : Env) (o : Oracle) (dag : List (Dep × List Dep)) :
    ∀ fuel s r, exec_loop env o fuel s = some r → s.dependants = dag →
      (stateOf r).dependants = dag ∧
      ∃ Δ, (stateOf r).events = s.events ++ Δ ∧
        (∀ x, decr_total Δ x ≤ finish_total dag Δ x) ∧
        (∀ s1, r = Except.ok s1 → ∀ x, decr_total Δ x = finish_total dag Δ x) := by
  intro fuel
  induction fuel with
  | zero =>
    intro s r h hdg
    simp only [exec_loop] at h
    split at h
    · simp only [Option.some.injEq] at h
      subst h
      refine ⟨hdg, [], by simp [stateOf], by simp [decr_total], ?_⟩
      intro s1 hs1 x
      simp [decr_total, finish_total]
    · exact absurd h (by simp)
  | succ f ih =>
    intro s r h hdg
    simp only [exec_loop] at h
    cases hfut : s.futures with
    | nil =>
      rw [hfut] at h
      dsimp only at h
      simp only [Option.some.injEq] at h
      subst h
      refine ⟨hdg, [], by simp [stateOf], by simp [decr_total], ?_⟩
      intro s1 hs1 x
      simp [decr_total, finish_total]
    | cons t0 rest =>
      rw [hfut] at h
      dsimp only at h
      cases hpc : process_completion env o f
          ((t0 :: rest).getD (o.pick s.clock % (t0 :: rest).length) (.path ""))
          { s with futures := (t0 :: rest).eraseIdx (o.pick s.clock % (t0 :: rest).length),
                   clock := s.clock + 1 } with
      | none =>
        rw [hpc] at h
        exact absurd h (by simp)
      | some res =>
        rw [hpc] at h
        have hpcd := process_completion_decr env o f dag _ _ _ hpc hdg
        obtain ⟨ha1, Δ1, hΔ1, hle1, heq1⟩ := hpcd
        match res, h with
        | .error e, h =>
          simp only [Option.some.injEq] at h
          subst h
          refine ⟨ha1, Δ1, hΔ1, hle1, ?_⟩
          intro s1 hs1
          exact absurd hs1 (by simp)
        | .ok s2, h =>
          simp only [stateOf] at ha1 hΔ1
          obtain ⟨ha2, Δ2, hΔ2, hle2, heq2⟩ := ih _ _ h ha1
          refine ⟨ha2, Δ1 ++ Δ2, by rw [hΔ2, hΔ1, List.append_assoc], ?_, ?_⟩
          · intro x
            rw [decr_total_append, finish_total_append]
            have h1 := hle1 x
            have h2 := hle2 x
            omega
          · intro s1 hs1 x
            rw [decr_total_append, finish_total_append]
            have h1 := heq1 s2 rfl x
            have h2 := heq2 s1 hs1 x
            omega

/-- C4.  In every successful run the ghost event log certifies the claimed
counter discipline: it replays to the final counter map — so a counter is
initialised at most once, on first reference (an `init` of a present key is
incoherent), and every `decr` lowers the stored value by exactly one; every
initialisation value is the total occurrence count over the dependant's
groups without deduplication; `run_target` is invoked on a dependant exactly
when — immediately after — its counter reaches zero; and the number of
decrements aimed at each node equals the number owed by the `finish`
transitions, one per occurrence of the node in the finished node's recorded
dependant list. -/
theorem c4_counter_discipline (env : Env) (o : Oracle) (fuel : Nat)
    (ts : List Dep) (s : TargetExecutor)
    (hex : execute env o fuel ts = some (Except.ok s)) :
    replay env s.events [] = some s.deps_left ∧
    (∀ d v, Event.init d v ∈ s.events → v = total_deps env d) ∧
    chunks_ok s.events = true ∧
    (∀ x, decr_total s.events x = finish_total s.dependants s.events x) := by
  have hex0 := hex
  unfold execute at hex
  cases hbd : build_execution_dag env fuel ts with
  | none => rw [hbd] at hex; exact absurd hex (by simp)
  | some dl =>
    obtain ⟨dag, leafs⟩ := dl
    rw [hbd] at hex
    dsimp only at hex
    have hmaster := execute_master env o fuel ts dag leafs (Except.ok s) hbd hex0
    obtain ⟨hinv, hdagst, _⟩ := hmaster
    simp only [stateOf] at hinv hdagst
    refine ⟨hinv.rep, hinv.inits, hinv.chunks, ?_⟩
    cases hrl : run_leafs env o fuel leafs
        { futures := [], dependants := dag, deps_left := [], modified_times := [],
          clock := 0, events := [] } with
    | none => rw [hrl] at hex; exact absurd hex (by simp)
    | some res1 =>
      rw [hrl] at hex
      match res1, hex with
      | .error e, hex => exact absurd hex (by simp)
      | .ok s1, hex =>
        obtain ⟨ha1, Δ1, hΔ1, _, heq1⟩ := run_leafs_decr env o fuel dag leafs _ _ hrl rfl
        simp only [stateOf] at ha1 hΔ1
        obtain ⟨ha2, Δ2, hΔ2, _, heq2⟩ := exec_loop_decr env o dag fuel s1 _ hex ha1
        simp only [stateOf] at ha2 hΔ2
        intro x
        rw [hdagst, hΔ2, hΔ1]
        simp only [List.nil_append]
        rw [decr_total_append, finish_total_append]
        have h1 := heq1 s1 rfl x
        have h2 := heq2 s rfl x
        omega

/-- Concrete two-node environment for exercising the counter discipline:
`lint` (a leaf with a command) and `all` depending on it. -/
def c4Env : Env :=
  { tgtData := fun _ => { cmd := "c", output := "o", depends := [] },
    phonyData := fun i =>
      if i = 0 then { name := "lint", cmd := some "l", depends := [] }
      else { name := "all", cmd := none, depends := [("G", [.phony 0])] },
    vars := [] }

def c4Oracle : Oracle :=
  { fs := fun _ _ => some 1, ok := fun _ => true, pick := fun _ => 0 }

def c4Final : TargetExecutor :=
  { futures := [], dependants := [(.phony 0, [.phony 1])], deps_left := [(.phony 1, 0)],
    modified_times := [], clock := 2,
    events := [.exec (.phony 0), .finish (.phony 0), .init (.phony 1) 1,
      .decr (.phony 1) 0, .runReady (.phony 1), .finish (.phony 1)] }

/-- Witness for C4: the concrete run of `pymk all` over [[c4Env]] satisfies
all four conjuncts of the counter discipline. -/
theorem c4_counter_discipline_witness :
    replay c4Env c4Final.events [] = some c4Final.deps_left ∧
    (∀ d v, Event.init d v ∈ c4Final.events → v = total_deps c4Env d) ∧
    chunks_ok c4Final.events = true ∧
    (∀ x, decr_total c4Final.events x =
      finish_total c4Final.dependants c4Final.events x) :=
  c4_counter_discipline c4Env c4Oracle 30 [.phony 1] c4Final rfl

/-- C5 amended.  When the scheduler observes a failure it aborts at once:
the run's final status is 1, reporting the first-observed failure (any
`PymkException`); at the moment of abort every future still outstanding was
a genuinely dispatched command (each is covered by a distinct `exec`
event), but those outstanding results are NOT processed for bookkeeping:
the completion loop stops without handling them, and no further node is
dispatched. -/
theorem c5_failure_amended (env : Env) (o : Oracle) (fuel : Nat) (ts : List Dep)
    (e : PyErr) (s : TargetExecutor)
    (hex : execute env o fuel ts = some (Except.error (e, s)))
    (hexc : isPymkExc e = true) :
    run env o fuel ts = some (Except.ok 1) ∧
    ∀ x, s.futures.count x ≤ s.events.count (Event.exec x) := by
  constructor
  · unfold run
    rw [hex]
    dsimp only
    rw [if_pos hexc]
  · have hex0 := hex
    unfold execute at hex
    cases hbd : build_execution_dag env fuel ts with
    | none => rw [hbd] at hex; exact absurd hex (by simp)
    | some dl =>
      obtain ⟨dag, leafs⟩ := dl
      have hmaster := execute_master env o fuel ts dag leafs (Except.error (e, s))
        hbd hex0
      obtain ⟨hinv, _, _⟩ := hmaster
      simp only [stateOf] at hinv
      exact hinv.futs

/-- Witness for C5 amended: in the two-leaf scenario whose first observed
completion fails, the overall run returns status 1 and the lone outstanding
future `A` is covered by its `exec` event. -/
theorem c5_failure_amended_witness :
    run
      { tgtData := fun _ => { cmd := "c", output := "o", depends := [] },
        phonyData := fun i =>
          if i = 0 then { name := "A", cmd := some "a", depends := [] }
          else { name := "B", cmd := some "b", depends := [] },
        vars := [] }
      { fs := fun _ _ => some 1, ok := fun _ => false, pick := fun _ => 0 }
      30 [.phony 0, .phony 1] = some (.ok 1) ∧
    ∀ x, ([Dep.phony 0] : List Dep).count x ≤
      ([Event.exec (.phony 1), Event.exec (.phony 0)] : List Event).count
        (Event.exec x) :=
  c5_failure_amended
    { tgtData := fun _ => { cmd := "c", output := "o", depends := [] },
      phonyData := fun i =>
        if i = 0 then { name := "A", cmd := some "a", depends := [] }
        else { name := "B", cmd := some "b", depends := [] },
      vars := [] }
    { fs := fun _ _ => some 1, ok := fun _ => false, pick := fun _ => 0 }
    30 [.phony 0, .phony 1] (.cmdFailed (.phony 1))
    { futures := [.phony 0], dependants := [], deps_left := [],
      modified_times := [], clock := 2,
      events := [.exec (.phony 1), .exec (.phony 0)] }
    rfl rfl
